import Mathlib

/-!
Verification of the UDAudioOrg mapping-and-relocation engine (`processing.py`,
`utils.py`).

The Python code is shallowly embedded: the path manipulation helpers of
`os.path` (as used by the tool on its slash-separated asset paths) are
translated below on `List Char` / `String`; the filesystem walk, JSON parsing
and thread pool are modelled by explicit inputs (lists of parsed records, an
existence predicate for files) as documented on each definition.  Python
dictionaries are modelled as association lists with first-insertion key order,
matching the dict semantics the code relies on.
-/

namespace UDAudio

/-- Index of the last occurrence of `c` in `l` (Python `str.rfind`, as a
partial map instead of the `-1` sentinel). -/
def rfindIdx (c : Char) : List Char → Option Nat
  | [] => none
  | a :: l =>
    match rfindIdx c l with
    | some i => some (i + 1)
    | none => if a = c then some 0 else none

/-- CPython `posixpath.splitext` (`genericpath._splitext` with `sep = '/'`,
no `altsep`): split off the extension at the last dot, provided the dot lies
in the final path component and is preceded there by some non-dot character
(leading dots of the basename never start an extension). -/
def splitextL (l : List Char) : List Char × List Char :=
  match rfindIdx '.' l with
  | none => (l, [])
  | some di =>
    let start : Nat :=
      match rfindIdx '/' l with
      | none => 0
      | some si => si + 1
    if start ≤ di then
      if ((l.take di).drop start).any (fun c => c != '.') then
        (l.take di, l.drop di)
      else (l, [])
    else (l, [])

/-- CPython `posixpath.basename`: everything after the last `'/'`. -/
def basenameL (l : List Char) : List Char :=
  match rfindIdx '/' l with
  | none => l
  | some si => l.drop (si + 1)

/-- Drop trailing `'/'` characters (Python `str.rstrip('/')`). -/
def rstripSlash (l : List Char) : List Char :=
  (l.reverse.dropWhile (fun c => c = '/')).reverse

/-- CPython `posixpath.dirname`: the part up to the last `'/'`, with trailing
slashes stripped unless the result consists of slashes only. -/
def dirnameL (l : List Char) : List Char :=
  match rfindIdx '/' l with
  | none => []
  | some si =>
    let head := l.take (si + 1)
    if head ≠ [] ∧ ¬ head.all (fun c => c = '/') then rstripSlash head else head

def splitext (s : String) : String × String :=
  let p := splitextL s.toList
  (String.mk p.1, String.mk p.2)

def basename (s : String) : String := String.mk (basenameL s.toList)

def dirname (s : String) : String := String.mk (dirnameL s.toList)

/-- CPython `posixpath.join` for two components (the three-argument
`os.path.join(a, b, c)` is `joinP (joinP a b) c`). -/
def joinP (a b : String) : String :=
  if b.toList.head? = some '/' then b
  else if a = "" ∨ a.toList.getLast? = some '/' then a ++ b
  else a ++ "/" ++ b

/-- Split a character list on `'/'` (Python `path.split('/')`). -/
def splitSep (l : List Char) : List (List Char) :=
  match l with
  | [] => [[]]
  | c :: rest =>
    match splitSep rest with
    | [] => [[]]
    | g :: gs => if c = '/' then [] :: g :: gs else (c :: g) :: gs

/-- One step of `posixpath.normpath`'s component loop. -/
def normStep (initialSlashes : Nat) (acc : List (List Char)) (comp : List Char) :
    List (List Char) :=
  if comp = [] ∨ comp = ['.'] then acc
  else if comp ≠ ['.', '.'] ∨ (initialSlashes = 0 ∧ acc = [])
      ∨ (acc ≠ [] ∧ acc.getLast? = some ['.', '.']) then acc ++ [comp]
  else if acc ≠ [] then acc.dropLast
  else acc

/-- CPython `posixpath.normpath`: collapse `.`/`..`/empty components, keeping
the POSIX double-slash special case. -/
def normpathL (l : List Char) : List Char :=
  if l = [] then ['.']
  else
    let initialSlashes : Nat :=
      if l.head? = some '/' then
        if l.take 2 = ['/', '/'] ∧ l.take 3 ≠ ['/', '/', '/'] then 2 else 1
      else 0
    let comps := (splitSep l).foldl (normStep initialSlashes) []
    let joined := (List.intersperse ['/'] comps).flatten
    let out := List.replicate initialSlashes '/' ++ joined
    if out = [] then ['.'] else out

def normpath (s : String) : String := String.mk (normpathL s.toList)

/-- Python `s.lower()` (ASCII case, the only case occurring in the tool's
prefixes and extensions). -/
def lowerStr (s : String) : String := String.mk (s.toList.map Char.toLower)

/-- Python `filename.lower().endswith(ext)` for an already-lower-case `ext`. -/
def endsWithCI (ext s : String) : Bool :=
  ext.toList.isSuffixOf ((s.toList.map Char.toLower))

/-- Python `parent.lower().startswith(pre.lower())`. -/
def startsWithCI (pre s : String) : Bool :=
  (pre.toList.map Char.toLower).isPrefixOf (s.toList.map Char.toLower)

/-! ### Python dictionaries as association lists -/

/-- Python `d[k]` / `k in d` lookup. -/
def dictLookup {β : Type} : List (String × β) → String → Option β
  | [], _ => none
  | (k', v) :: rest, k => if k' = k then some v else dictLookup rest k

/-- Python `d[k] = v`: update in place if the key exists, else append
(insertion order preserved). -/
def dictSet {β : Type} : List (String × β) → String → β → List (String × β)
  | [], k, v => [(k, v)]
  | (k', v') :: rest, k, v =>
    if k' = k then (k, v) :: rest else (k', v') :: dictSet rest k v

/-- `defaultdict` access-and-mutate: apply `f` to the current value of `k`,
or to `dflt` (appending the key) when `k` is absent. -/
def dictUpdate {β : Type} (d : List (String × β)) (k : String) (dflt : β)
    (f : β → β) : List (String × β) :=
  match dictLookup d k with
  | some _ => d.map (fun p => if p.1 = k then (p.1, f p.2) else p)
  | none => d ++ [(k, f dflt)]

def dictKeys {β : Type} (d : List (String × β)) : List String := d.map Prod.fst

/-! ### Sorting (Python `sorted`) -/

instance {β : Type} : DecidableRel (fun (a b : String × β) => a.1 ≤ b.1) :=
  fun a b => inferInstanceAs (Decidable (a.1 ≤ b.1))

instance {β : Type} : IsTotal (String × β) (fun a b => a.1 ≤ b.1) :=
  ⟨fun a b => le_total a.1 b.1⟩

instance {β : Type} : IsTrans (String × β) (fun a b => a.1 ≤ b.1) :=
  ⟨fun _ _ _ h1 h2 => le_trans h1 h2⟩

/-- Python `sorted` on a list of strings. -/
def sortStrings (l : List String) : List String := List.insertionSort (· ≤ ·) l

/-- Python `sorted(d.items())` on a dict with unique keys: sort by key. -/
def sortByKey {β : Type} (d : List (String × β)) : List (String × β) :=
  List.insertionSort (fun a b => a.1 ≤ b.1) d

/-! ### Data model (`wem_mapping.json` entries) -/

/-- One value of the persisted mapping table
(`{"DebugName": ..., "SourceJsons": [...]}`).  `DebugName` is optional because
relocation reads the table back with `map_data.get("DebugName")`. -/
structure MapEntry where
  DebugName : Option String
  SourceJsons : List String
deriving DecidableEq, Repr

/-! ### Metadata scanner (`generate_mapping_from_json`, processing.py 118-196)

The `os.walk`/`json.load` part is modelled by the input: a list of files, each
carrying its relative path (`os.path.relpath(json_path, json_dir)` with
separators normalised, as computed on lines 147-149) and either a parse error
or the list of `{MediaPathName, DebugName}` media records found by the descent
through `EventCookedData.EventLanguageMap[*].Value.Media[*]` (lines 152-158).
-/

/-- A media record as extracted on lines 157-158 (`media.get(...)` may be
absent). -/
structure Media where
  MediaPathName : Option String
  DebugName : Option String
deriving DecidableEq, Repr

instance {ε α : Type} [DecidableEq ε] [DecidableEq α] : DecidableEq (Except ε α) :=
  fun a b =>
    match a, b with
    | .ok x, .ok y =>
      match decEq x y with
      | isTrue h => isTrue (by rw [h])
      | isFalse h => isFalse (fun hc => h (by cases hc; rfl))
    | .error x, .error y =>
      match decEq x y with
      | isTrue h => isTrue (by rw [h])
      | isFalse h => isFalse (fun hc => h (by cases hc; rfl))
    | .ok _, .error _ => isFalse (fun hc => by cases hc)
    | .error _, .ok _ => isFalse (fun hc => by cases hc)

/-- A metadata JSON file presented to the scanner: its relative path and its
parse/extraction outcome. -/
structure JsonFile where
  relPath : String
  parse : Except String (List Media)
deriving DecidableEq, Repr

/-- A scanner warning (line 175). `oldDebug` is the previously stored
`DebugName`. -/
inductive ScanWarn
  | conflict (mediaPath foundDebug srcJson : String) (oldDebug : Option String)
deriving DecidableEq, Repr

def ScanWarn.mediaOf : ScanWarn → String
  | .conflict m _ _ _ => m

structure ScanState where
  mapping : List (String × MapEntry)
  warns : List ScanWarn
  errors : List String
deriving DecidableEq, Repr

/-- Lines 160-178: process one truthy `(media_path, debug_name)` pair against
the accumulating mapping.  New ids get a fresh entry; repeat observations
append the source file if absent, then (on a differing debug name) warn and
overwrite with the new debug name (last-write-wins). -/
def scanPair (src : String) (mw : List (String × MapEntry) × List ScanWarn)
    (mp dn : String) : List (String × MapEntry) × List ScanWarn :=
  match dictLookup mw.1 mp with
  | none => (mw.1 ++ [(mp, ⟨some dn, [src]⟩)], mw.2)
  | some e =>
    let e1 :=
      if src ∈ e.SourceJsons then e
      else { e with SourceJsons := e.SourceJsons ++ [src] }
    if e1.DebugName ≠ some dn then
      (dictSet mw.1 mp { e1 with DebugName := some dn },
       mw.2 ++ [.conflict mp dn src e.DebugName])
    else (dictSet mw.1 mp e1, mw.2)

/-- Lines 156-159: the `if media_path and debug_name` truthiness guard. -/
def scanMedia (src : String)
    (mw : List (String × MapEntry) × List ScanWarn) (m : Media) :
    List (String × MapEntry) × List ScanWarn :=
  match m.MediaPathName, m.DebugName with
  | some mp, some dn => if mp ≠ "" ∧ dn ≠ "" then scanPair src mw mp dn else mw
  | _, _ => mw

/-- Lines 142-181: one file; a parse failure is logged and skipped
(`except` on line 180), a parsed file contributes all its media records. -/
def scanFile (st : ScanState) (f : JsonFile) : ScanState :=
  match f.parse with
  | .error e =>
    { st with errors := st.errors ++ ["❌ Failed to process " ++ f.relPath ++ ": " ++ e] }
  | .ok ms =>
    let mw := ms.foldl (scanMedia f.relPath) (st.mapping, st.warns)
    { st with mapping := mw.1, warns := mw.2 }

/-- Lines 186-194: serialize with keys sorted and each `SourceJsons` list
sorted. -/
def finalizeMapping (d : List (String × MapEntry)) : List (String × MapEntry) :=
  (sortByKey d).map (fun p => (p.1, ⟨p.2.DebugName, sortStrings p.2.SourceJsons⟩))

/-- `generate_mapping_from_json`: returns the saved mapping table, the
conflict warnings, and the per-file error log lines. -/
def generate_mapping_from_json (files : List JsonFile) :
    List (String × MapEntry) × List ScanWarn × List String :=
  let st := files.foldl scanFile ⟨[], [], []⟩
  (finalizeMapping st.mapping, st.warns, st.errors)

/-! ### Characterization helpers for the scanner -/

/-- One truthy `(source json, media path, debug name)` observation. -/
structure Obs where
  srcJson : String
  mediaPath : String
  debugName : String
deriving DecidableEq, Repr

/-- The observation a media record yields, if it passes the truthiness
guard. -/
def mediaObs (src : String) (m : Media) : Option Obs :=
  match m.MediaPathName, m.DebugName with
  | some mp, some dn => if mp ≠ "" ∧ dn ≠ "" then some ⟨src, mp, dn⟩ else none
  | _, _ => none

/-- The observations a file contributes (empty for a malformed file). -/
def fileObs (f : JsonFile) : List Obs :=
  match f.parse with
  | .error _ => []
  | .ok ms => ms.filterMap (mediaObs f.relPath)

/-- The error-log lines a file contributes (line 181). -/
def fileErrs (f : JsonFile) : List String :=
  match f.parse with
  | .error e => ["❌ Failed to process " ++ f.relPath ++ ": " ++ e]
  | .ok _ => []

def allObs (files : List JsonFile) : List Obs := (files.map fileObs).flatten

/-- The observations asserting a given opaque id, in scan order. -/
def obsFor (mp : String) (files : List JsonFile) : List Obs :=
  (allObs files).filter (fun o => o.mediaPath == mp)

/-- Obs-level restatement of `scanPair`. -/
def scanObs (mw : List (String × MapEntry) × List ScanWarn) (o : Obs) :
    List (String × MapEntry) × List ScanWarn :=
  scanPair o.srcJson mw o.mediaPath o.debugName

/-- The effect of one observation on an existing entry (lines 167-178). -/
def stepEntry (e : MapEntry) (o : Obs) : MapEntry :=
  let e1 :=
    if o.srcJson ∈ e.SourceJsons then e
    else { e with SourceJsons := e.SourceJsons ++ [o.srcJson] }
  if e1.DebugName ≠ some o.debugName then { e1 with DebugName := some o.debugName } else e1

/-- The entry created on first observation (lines 160-165). -/
def newEntry (o : Obs) : MapEntry := ⟨some o.debugName, [o.srcJson]⟩

/-- The entry a sequence of observations of one id produces. -/
def combineEntry : Option MapEntry → List Obs → Option MapEntry
  | e, [] => e
  | none, o :: os => combineEntry (some (newEntry o)) os
  | some e, o :: os => combineEntry (some (stepEntry e o)) os

/-- The conflict warnings a sequence of observations of one id produces: one
warning for each observation whose debug name differs from the currently
stored one. -/
def conflictChain (mp : String) : Option MapEntry → List Obs → List ScanWarn
  | _, [] => []
  | none, o :: os => conflictChain mp (some (newEntry o)) os
  | some e, o :: os =>
    if e.DebugName ≠ some o.debugName then
      .conflict mp o.debugName o.srcJson e.DebugName ::
        conflictChain mp (some (stepEntry e o)) os
    else conflictChain mp (some (stepEntry e o)) os

/-- The scanner warnings concerning one opaque id. -/
def conflictsFor (mp : String) (ws : List ScanWarn) : List ScanWarn :=
  ws.filter (fun w => w.mediaOf == mp)

/-- Whether a file parsed (for C9's fail-soft statement). -/
def fileOk (f : JsonFile) : Bool :=
  match f.parse with
  | .ok _ => true
  | .error _ => false

/-! ### Relocation engine (processing.py 198-331)

The filesystem is modelled by an existence predicate `fs : String → Bool`
(`os.path.exists`); `shutil.copy2` is assumed to succeed whenever the source
exists, so `copy_file_with_logging` (utils.py 6-21) returns exactly the
existence of its source.  The thread pool of `threaded_copy_tasks` drains a
fixed task list and aggregates results; completion order only permutes the
task list, and the counts are proved permutation-invariant in C3.
-/

/-- utils.py 6-21: copy one file, `True` on success, `False` when the source
is missing (`shutil.copy2` itself is assumed to succeed, so the result
depends only on the source's existence). -/
def copy_file_with_logging (fs : String → Bool) (src _dst : String) : Bool :=
  if fs src then true else false

/-- Lines 212-221: collect one completed task's result into the running
`(success_count, error_list)` pair. -/
def copyFold (fs : String → Bool) (acc : Nat × List String) (t : String × String) :
    Nat × List String :=
  if copy_file_with_logging fs t.1 t.2 then (acc.1 + 1, acc.2)
  else (acc.1, acc.2 ++ ["File not found or failed: " ++ t.1])

/-- processing.py 198-223: execute the batch, counting successes and
collecting one `error_list` line per failed task. -/
def threaded_copy_tasks (fs : String → Bool) (tasks : List (String × String)) :
    Nat × List String :=
  tasks.foldl (copyFold fs) (0, [])

/-- The error message logged when `wem_mapping.json` is absent (lines 234 and
277). -/
def missingMappingMsg : String :=
  "❌ wem_mapping.json (PC mapping) not found. Please generate it first using option 1."

/-- Line 253: destination filename = stem of the debug name's basename plus
the extension of the opaque id. -/
def outputFilename (media_path debug_name : String) : String :=
  (splitext (basename debug_name)).1 ++ (splitext media_path).2

/-- Lines 244-255: the copy task for one mapping entry of forward relocation,
`none` when the entry is skipped for a falsy `DebugName`. -/
def unobTask (wem_dir output_dir media_path : String) (e : MapEntry) :
    Option (String × String) :=
  match e.DebugName with
  | some dn =>
    if dn = "" then none
    else
      some (normpath (joinP wem_dir media_path),
            normpath (joinP (joinP output_dir (dirname dn))
              (outputFilename media_path dn)))
  | none => none

/-- Relocation warnings (lines 247, 293, 296, 319). -/
inductive RelocWarn
  | missingDebug (mediaPath : String)
  | dup (debugName keep discard : String)
  | sourceNotFound (wemPath wavPath debugName : String)
deriving DecidableEq, Repr

def RelocWarn.isDupFor (d : String) : RelocWarn → Bool
  | .dup dn _ _ => dn == d
  | _ => false

/-- The opaque id a `dup` warning names as discarded
(`inverted_mapping[debug_name]` on line 293). -/
def RelocWarn.discard : RelocWarn → String
  | .dup _ _ disc => disc
  | .missingDebug m => m
  | .sourceNotFound _ _ dn => dn

/-- Lines 287-297: one step of building the inverted mapping.  A repeated
debug name overwrites the previous opaque id and logs a warning naming the
kept and the discarded id; a falsy debug name only warns. -/
def invStep (st : List (String × String) × List RelocWarn)
    (p : String × MapEntry) : List (String × String) × List RelocWarn :=
  match p.2.DebugName with
  | some dn =>
    if dn = "" then (st.1, st.2 ++ [.missingDebug p.1])
    else
      match dictLookup st.1 dn with
      | some old => (dictSet st.1 dn p.1, st.2 ++ [.dup dn p.1 old])
      | none => (dictSet st.1 dn p.1, st.2)
  | none => (st.1, st.2 ++ [.missingDebug p.1])

def buildInverted (mapping : List (String × MapEntry)) :
    List (String × String) × List RelocWarn :=
  mapping.foldl invStep ([], [])

/-- Lines 299-319: search the source file (`.wem` first, then `.wav`) for one
inverted entry and emit the copy task or a warning. -/
def obfStep (fs : String → Bool) (wem_dir output_dir : String)
    (acc : List (String × String) × List RelocWarn) (p : String × String) :
    List (String × String) × List RelocWarn :=
  let source_base := (splitext p.1).1
  let source_path_wem := normpath (joinP wem_dir (source_base ++ ".wem"))
  let source_path_wav := normpath (joinP wem_dir (source_base ++ ".wav"))
  if fs source_path_wem then
    (acc.1 ++ [(source_path_wem, normpath (joinP output_dir p.2))], acc.2)
  else if fs source_path_wav then
    (acc.1 ++ [(source_path_wav, normpath (joinP output_dir p.2))], acc.2)
  else (acc.1, acc.2 ++ [.sourceNotFound source_path_wem source_path_wav p.1])

/-- Outcome of a relocation run.  The mapping file is modelled as
`Option (mapping table)`: `none` is the `os.path.exists` failure on lines
233/276, detected before any parse or task construction. -/
inductive RelocResult
  | mappingMissing (msg : String)
  | completed (tasks : List (String × String)) (successCount : Nat)
      (errorList : List String) (warns : List RelocWarn)
deriving DecidableEq, Repr

def RelocResult.tasks : RelocResult → List (String × String)
  | .mappingMissing _ => []
  | .completed t _ _ _ => t

def RelocResult.successCount : RelocResult → Nat
  | .mappingMissing _ => 0
  | .completed _ s _ _ => s

def RelocResult.errorList : RelocResult → List String
  | .mappingMissing _ => []
  | .completed _ _ e _ => e

/-- processing.py 225-266: forward relocation ("unobfuscate"). -/
def unobfuscate_from_mapping (mapFile : Option (List (String × MapEntry)))
    (fs : String → Bool) (wem_dir output_dir : String) : RelocResult :=
  match mapFile with
  | none => .mappingMissing missingMappingMsg
  | some mapping =>
    let tasks := mapping.filterMap (fun p => unobTask wem_dir output_dir p.1 p.2)
    let warns := mapping.filterMap (fun p =>
      match p.2.DebugName with
      | some dn => if dn = "" then some (RelocWarn.missingDebug p.1) else none
      | none => some (RelocWarn.missingDebug p.1))
    let r := threaded_copy_tasks fs tasks
    .completed tasks r.1 r.2 warns

/-- processing.py 268-331: reverse relocation ("obfuscate"). -/
def obfuscate_from_mapping (mapFile : Option (List (String × MapEntry)))
    (fs : String → Bool) (wem_dir output_dir : String) : RelocResult :=
  match mapFile with
  | none => .mappingMissing missingMappingMsg
  | some mapping =>
    let iw := buildInverted mapping
    let tw := iw.1.foldl (obfStep fs wem_dir output_dir) ([], iw.2)
    let r := threaded_copy_tasks fs tw.1
    .completed tw.1 r.1 r.2 tw.2

/-! ### Characterization helpers for reverse relocation -/

/-- The opaque ids of the mapping entries carrying a given (truthy) debug
name, in iteration order. -/
def debugEntries (d : String) (mapping : List (String × MapEntry)) : List String :=
  mapping.filterMap (fun p =>
    match p.2.DebugName with
    | some dn => if dn = "" then none else if dn = d then some p.1 else none
    | none => none)

/-- The duplicate warnings a run of opaque ids sharing one debug name
produces: none for the first, and for each later one a warning keeping it and
discarding its predecessor. -/
def chainWarns (d : String) : Option String → List String → List RelocWarn
  | _, [] => []
  | none, m :: ms => chainWarns d (some m) ms
  | some prev, m :: ms => RelocWarn.dup d m prev :: chainWarns d (some m) ms

def dupsFor (d : String) (ws : List RelocWarn) : List RelocWarn :=
  ws.filter (RelocWarn.isDupFor d)

/-- Last element of a run, or a seed value when the run is empty. -/
def lastOr (seed : Option String) (ms : List String) : Option String :=
  match ms.getLast? with
  | some m => some m
  | none => seed

/-! ### PS4 analyzer (`find_ps4_wem_duplicates`, processing.py 364-523)

The walk over `ps4_wem_dir` is modelled by the input list of file records:
relative path (`os.path.relpath(full_path, ps4_wem_dir)`), the name of the
immediate parent directory (`os.path.basename(os.path.dirname(full_path))`,
line 407) and the file size.  `vgmPresent` is `os.path.exists(VGMSTREAM_PATH)`
(line 424).  When vgmstream-cli is present, the result-collection loop on line
428 reads `future_to_task`, a name defined only locally inside
`threaded_copy_tasks`, so the run raises an unhandled `NameError`, modelled as
`Except.error`; nothing is written in that case.  `os.remove` in the cleanup
pass (lines 504-523) is assumed to succeed. -/

structure FileRec where
  relPath : String
  parentDir : String
  size : Nat
deriving DecidableEq, Repr

/-- Lines 376-380. -/
def folder_types : List String :=
  ["Act_", "Ambience_", "Foley_", "Footsteps_", "Generic_", "music_",
   "Sequences_", "SFX_", "Choices", "Butterfly_effect_bank", "Frontend",
   "Global_", "VFX_", "Wendigo_"]

def other_category : String := "Other"

/-- Lines 408-412: first prefix matching the parent directory name
case-insensitively, else the catch-all. -/
def matchCategory (parent : String) : String :=
  match folder_types.find? (fun q => startsWithCI q parent) with
  | some q => q
  | none => other_category

/-- The per-filename accumulator (line 372); `all_categories` models the
Python set as a first-insertion-ordered duplicate-free list (it is only ever
consumed through `sorted(list(...))`). -/
structure FileInfo where
  paths : List String
  all_categories : List String
  size : Nat
deriving DecidableEq, Repr

def isWemRec (r : FileRec) : Bool := endsWithCI ".wem" (basename r.relPath)

def isWavRec (r : FileRec) : Bool := endsWithCI ".wav" (basename r.relPath)

/-- Lines 403-413: record one scanned `.wem` file under its filename. -/
def infoApply (r : FileRec) (i : FileInfo) : FileInfo :=
  { paths := i.paths ++ [r.relPath],
    all_categories :=
      if matchCategory r.parentDir ∈ i.all_categories then i.all_categories
      else i.all_categories ++ [matchCategory r.parentDir],
    size := r.size }

/-- Lines 389-417: the scan loop step over one walked file. -/
def infoStep (d : List (String × FileInfo)) (r : FileRec) :
    List (String × FileInfo) :=
  if isWemRec r then dictUpdate d (basename r.relPath) ⟨[], [], 0⟩ (infoApply r)
  else d

/-- One report entry (lines 466-471). -/
structure CatEntry where
  paths : List String
  all_categories : List String
  size : Nat
  duration : String
deriving DecidableEq, Repr

/-- Line 454-459: duration looked up from the first recorded path. -/
def durationOf (durs : List (String × String)) (i : FileInfo) : String :=
  match i.paths.head? with
  | some q => (dictLookup durs q).getD "N/A (Lookup Error)"
  | none => "N/A"

/-- The report entry built for one filename (lines 466-471). -/
def catEntryOf (durs : List (String × String)) (i : FileInfo) : CatEntry :=
  { paths := sortStrings i.paths,
    all_categories := sortStrings i.all_categories,
    size := i.size,
    duration := durationOf durs i }

/-- Lines 463-471: insert a filename's entry under one category unless
already present (`defaultdict` creation of the category included). -/
def catIns (fname : String) (e : CatEntry)
    (cd : List (String × List (String × CatEntry))) (cat : String) :
    List (String × List (String × CatEntry)) :=
  dictUpdate cd cat []
    (fun m =>
      match dictLookup m fname with
      | some _ => m
      | none => m ++ [(fname, e)])

/-- Lines 448-471: replicate one filename's entry under each of its sorted
categories. -/
def catStep (durs : List (String × String))
    (cd : List (String × List (String × CatEntry))) (p : String × FileInfo) :
    List (String × List (String × CatEntry)) :=
  (sortStrings p.2.all_categories).foldl (catIns p.1 (catEntryOf durs p.2)) cd

/-- Lines 479-482: category keys sorted with the catch-all moved last. -/
def sortedCatKeys (cd : List (String × List (String × CatEntry))) : List String :=
  if other_category ∈ sortStrings (dictKeys cd) then
    ((sortStrings (dictKeys cd)).filter (fun c => c != other_category)) ++
      [other_category]
  else sortStrings (dictKeys cd)

/-- Lines 479-493: sort categories (catch-all last), filenames within each
category, and paths within each entry. -/
def sortReport (cd : List (String × List (String × CatEntry))) :
    List (String × List (String × CatEntry)) :=
  (sortedCatKeys cd).filterMap (fun c =>
    (dictLookup cd c).map (fun m =>
      (c, (sortByKey m).map (fun q =>
        (q.1, (⟨sortStrings q.2.paths, q.2.all_categories, q.2.size,
          q.2.duration⟩ : CatEntry))))))

structure AnalyzerResult where
  report : List (String × List (String × CatEntry))
  fsAfter : List FileRec
  deletedCount : Nat
deriving DecidableEq, Repr

/-- `find_ps4_wem_duplicates`: scan, (attempt to) compute durations, write
the categorized report, then delete every `.wav` file under the input tree.
With vgmstream-cli present the duration collection loop raises `NameError`
(undefined `future_to_task`, line 428) before anything is written. -/
def find_ps4_wem_duplicates (vgmPresent : Bool) (files : List FileRec) :
    Except String AnalyzerResult :=
  let info := files.foldl infoStep []
  let wemPaths := (files.filter isWemRec).map FileRec.relPath
  if vgmPresent then
    Except.error "NameError: name 'future_to_task' is not defined"
  else
    let durs := wemPaths.map (fun q => (q, "N/A (vgmstream-cli Missing)"))
    let report := sortReport (info.foldl (catStep durs) [])
    Except.ok
      { report := report,
        fsAfter := files.filter (fun r => !(isWavRec r)),
        deletedCount := files.countP isWavRec }

/-- The report of a completing run (vgmstream-cli absent). -/
def reportOf (files : List FileRec) : List (String × List (String × CatEntry)) :=
  match find_ps4_wem_duplicates false files with
  | .ok r => r.report
  | .error _ => []

/-- The file tree left after a completing run. -/
def fsAfterOf (files : List FileRec) : List FileRec :=
  match find_ps4_wem_duplicates false files with
  | .ok r => r.fsAfter
  | .error _ => files

def deletedOf (files : List FileRec) : Nat :=
  match find_ps4_wem_duplicates false files with
  | .ok r => r.deletedCount
  | .error _ => 0

/-- Category-then-filename lookup in a report. -/
def dictLookup2 (d : List (String × List (String × CatEntry))) (c f : String) :
    Option CatEntry :=
  match dictLookup d c with
  | some m => dictLookup m f
  | none => none

/-! ### Characterization helpers for the analyzer -/

/-- The scanned `.wem` files bearing a given filename, in walk order. -/
def wemOcc (files : List FileRec) (F : String) : List FileRec :=
  (files.filter isWemRec).filter (fun r => basename r.relPath == F)

/-- First-insertion-order deduplication (the observable content of the
Python set accumulation). -/
def dedupAppend (l : List String) : List String :=
  l.foldl (fun acc c => if c ∈ acc then acc else acc ++ [c]) []

/-- The sorted list of every category matched by some occurrence of a
filename. -/
def catsOf (files : List FileRec) (F : String) : List String :=
  sortStrings (dedupAppend ((wemOcc files F).map (fun r => matchCategory r.parentDir)))

/-- The one report entry a filename receives (replicated under each of its
categories). -/
def canonicalEntry (files : List FileRec) (F : String) : CatEntry :=
  { paths := sortStrings ((wemOcc files F).map FileRec.relPath),
    all_categories := catsOf files F,
    size :=
      match (wemOcc files F).getLast? with
      | some r => r.size
      | none => 0,
    duration := "N/A (vgmstream-cli Missing)" }

/-! ### Concrete inputs for witnesses and counterexamples -/

def fileA : JsonFile := ⟨"a.json", .ok [⟨some "m.wem", some "d1.wav"⟩]⟩

def fileB : JsonFile := ⟨"b.json", .ok [⟨some "m.wem", some "d2.wav"⟩]⟩

def witScanFiles : List JsonFile :=
  [⟨"s1.json", .ok [⟨some "m.wem", some "d1.wav"⟩]⟩,
   ⟨"s2.json", .ok [⟨some "m.wem", some "d2.wav"⟩]⟩]

def witMapping : List (String × MapEntry) :=
  [("Media/1.wem", ⟨some "Bar/Line.wav", ["a.json"]⟩),
   ("Media/2.wem", ⟨some "Bar/Line.wav", ["b.json"]⟩)]

def witFs : String → Bool := fun s => !(["h", "i", "j"].contains s)

def witTasks : List (String × String) :=
  [("a", "o/a"), ("b", "o/b"), ("c", "o/c"), ("d", "o/d"), ("e", "o/e"),
   ("f", "o/f"), ("g", "o/g"), ("h", "o/h"), ("i", "o/i"), ("j", "o/j")]

def witTree : List FileRec :=
  [⟨"Act_Foo/a.wem", "Act_Foo", 5⟩,
   ⟨"Ambience_Bar/a.wem", "Ambience_Bar", 5⟩,
   ⟨"Act_Foo/b.wav", "Act_Foo", 3⟩]

/-! ### Basic lemmas about the primitives -/

theorem rfindIdx_eq_none {c : Char} {l : List Char} (h : c ∉ l) :
    rfindIdx c l = none := by
  induction l with
  | nil => rfl
  | cons a l ih =>
    have ha : ¬ a = c := fun hac => h (hac ▸ List.mem_cons_self a l)
    have hl : c ∉ l := fun hm => h (List.mem_cons_of_mem a hm)
    simp [rfindIdx, ih hl, ha]

theorem rfindIdx_append_last {c : Char} (s e : List Char) (he : c ∉ e) :
    rfindIdx c (s ++ c :: e) = some s.length := by
  induction s with
  | nil => simp [rfindIdx, rfindIdx_eq_none he]
  | cons a s ih => simp [rfindIdx, ih]

theorem take_append_len (s t : List Char) : (s ++ t).take s.length = s := by
  induction s with
  | nil => rfl
  | cons a s ih => simp [ih]

theorem drop_append_len (s t : List Char) : (s ++ t).drop s.length = t := by
  induction s with
  | nil => rfl
  | cons a s ih => simp [ih]

/-- The central extension fact: gluing a dot-free, slash-free extension onto a
slash-free stem that contains a non-dot character splits back into exactly
that stem and extension. -/
theorem splitextL_append (s e : List Char)
    (hs : '/' ∉ s) (hnd : ∃ c ∈ s, c ≠ '.')
    (he1 : '.' ∉ e) (he2 : '/' ∉ e) :
    splitextL (s ++ '.' :: e) = (s, '.' :: e) := by
  have hdot : rfindIdx '.' (s ++ '.' :: e) = some s.length :=
    rfindIdx_append_last s e he1
  have hsep : rfindIdx '/' (s ++ '.' :: e) = none := by
    apply rfindIdx_eq_none
    intro hm
    rcases List.mem_append.1 hm with h | h
    · exact hs h
    · rcases List.mem_cons.1 h with h | h
      · exact absurd h (by decide)
      · exact he2 h
  have htake : (s ++ '.' :: e).take s.length = s := take_append_len _ _
  have hdrop : (s ++ '.' :: e).drop s.length = '.' :: e := drop_append_len _ _
  have hany : (s.any (fun c => c != '.')) = true := by
    rw [List.any_eq_true]
    rcases hnd with ⟨c, hc, hcd⟩
    exact ⟨c, hc, by simpa using hcd⟩
  rw [splitextL, hdot, hsep]
  simp [htake, hdrop, hany]

theorem dictLookup_dictSet {β : Type} (d : List (String × β)) (k k' : String)
    (v : β) :
    dictLookup (dictSet d k v) k' =
      if k = k' then some v else dictLookup d k' := by
  induction d with
  | nil => by_cases h : k = k' <;> simp [dictSet, dictLookup, h]
  | cons p d ih =>
    obtain ⟨pk, pv⟩ := p
    by_cases h1 : pk = k
    · subst h1
      by_cases h2 : pk = k'
      · subst h2; simp [dictSet, dictLookup]
      · simp [dictSet, dictLookup, h2]
    · by_cases h3 : pk = k'
      · subst h3
        have h2 : ¬ k = pk := fun h => h1 h.symm
        simp [dictSet, dictLookup, h1, h2]
      · simp [dictSet, dictLookup, h1, h3, ih]

theorem dictLookup_append {β : Type} (d₁ d₂ : List (String × β)) (k : String) :
    dictLookup (d₁ ++ d₂) k =
      match dictLookup d₁ k with
      | some v => some v
      | none => dictLookup d₂ k := by
  induction d₁ with
  | nil => simp [dictLookup]
  | cons p d ih =>
    by_cases h : p.1 = k <;> simp [dictLookup, h, ih]

theorem dictLookup_eq_none_iff {β : Type} (d : List (String × β)) (k : String) :
    dictLookup d k = none ↔ k ∉ dictKeys d := by
  induction d with
  | nil => simp [dictLookup, dictKeys]
  | cons p d ih =>
    obtain ⟨pk, pv⟩ := p
    by_cases h : pk = k
    · subst h; simp [dictLookup, dictKeys]
    · have h' : ¬ k = pk := fun hk => h hk.symm
      simp [dictLookup, dictKeys, h, h', ih]

theorem copy_file_eq (fs : String → Bool) (src dst : String) :
    copy_file_with_logging fs src dst = fs src := by
  by_cases h : fs src <;> simp [copy_file_with_logging, h]

theorem countP_bool_split {α : Type} (p : α → Bool) (l : List α) :
    l.countP p + l.countP (fun a => !(p a)) = l.length := by
  induction l with
  | nil => rfl
  | cons a l ih =>
    by_cases h : p a <;>
      simp [List.countP_cons, h, ← ih] <;> omega

theorem threaded_success_aux (fs : String → Bool) (tasks : List (String × String))
    (n : Nat) (es : List String) :
    (tasks.foldl (copyFold fs) (n, es)).1 = n + tasks.countP (fun t => fs t.1) := by
  induction tasks generalizing n es with
  | nil => simp
  | cons t ts ih =>
    rw [List.foldl_cons, List.countP_cons]
    by_cases h : fs t.1
    · rw [show copyFold fs (n, es) t = (n + 1, es) from by
        simp [copyFold, copy_file_eq, h]]
      rw [ih]
      simp [h]
      omega
    · rw [show copyFold fs (n, es) t =
          (n, es ++ ["File not found or failed: " ++ t.1]) from by
        simp [copyFold, copy_file_eq, h]]
      rw [ih]
      simp [h]

theorem threaded_errors_aux (fs : String → Bool) (tasks : List (String × String))
    (n : Nat) (es : List String) :
    (tasks.foldl (copyFold fs) (n, es)).2.length =
      es.length + tasks.countP (fun t => !(fs t.1)) := by
  induction tasks generalizing n es with
  | nil => simp
  | cons t ts ih =>
    rw [List.foldl_cons, List.countP_cons]
    by_cases h : fs t.1
    · rw [show copyFold fs (n, es) t = (n + 1, es) from by
        simp [copyFold, copy_file_eq, h]]
      rw [ih]
      simp [h]
    · rw [show copyFold fs (n, es) t =
          (n, es ++ ["File not found or failed: " ++ t.1]) from by
        simp [copyFold, copy_file_eq, h]]
      rw [ih]
      simp [h]
      omega

theorem threaded_success (fs : String → Bool) (tasks : List (String × String)) :
    (threaded_copy_tasks fs tasks).1 = tasks.countP (fun t => fs t.1) := by
  have := threaded_success_aux fs tasks 0 []
  simpa [threaded_copy_tasks] using this

theorem threaded_errors (fs : String → Bool) (tasks : List (String × String)) :
    (threaded_copy_tasks fs tasks).2.length = tasks.countP (fun t => !(fs t.1)) := by
  have := threaded_errors_aux fs tasks 0 []
  simpa [threaded_copy_tasks] using this

/-- Claim C3: in a relocation batch every task whose source is missing is
recorded as exactly one `error_list` entry while the batch continues,
`success_count` is the number of copies that succeeded, the totals are
independent of the order in which the pool completes the tasks, and in
particular a batch of 10 tasks with 3 missing sources ends with
`success_count = 7` and 3 error lines; the fold is total, so no run raises. -/
theorem claim_C3 (fs : String → Bool) (tasks : List (String × String)) :
    (threaded_copy_tasks fs tasks).1 = tasks.countP (fun t => fs t.1)
    ∧ (threaded_copy_tasks fs tasks).2.length = tasks.countP (fun t => !(fs t.1))
    ∧ (∀ tasks₂, tasks.Perm tasks₂ →
        (threaded_copy_tasks fs tasks₂).1 = (threaded_copy_tasks fs tasks).1
        ∧ (threaded_copy_tasks fs tasks₂).2.length = (threaded_copy_tasks fs tasks).2.length)
    ∧ (tasks.length = 10 → tasks.countP (fun t => !(fs t.1)) = 3 →
        (threaded_copy_tasks fs tasks).1 = 7
        ∧ (threaded_copy_tasks fs tasks).2.length = 3) := by
  refine ⟨threaded_success fs tasks, threaded_errors fs tasks, ?_, ?_⟩
  · intro tasks₂ hperm
    rw [threaded_success, threaded_success, threaded_errors, threaded_errors]
    exact ⟨hperm.symm.countP_eq _, hperm.symm.countP_eq _⟩
  · intro hlen hmiss
    have hsplit := countP_bool_split (fun t => fs t.1) tasks
    rw [threaded_success, threaded_errors]
    constructor
    · omega
    · exact hmiss

theorem claim_C3_witness :
    ((threaded_copy_tasks witFs (witTasks.reverse)).1 = (threaded_copy_tasks witFs witTasks).1
      ∧ (threaded_copy_tasks witFs (witTasks.reverse)).2.length =
          (threaded_copy_tasks witFs witTasks).2.length)
    ∧ (threaded_copy_tasks witFs witTasks).1 = 7
    ∧ (threaded_copy_tasks witFs witTasks).2.length = 3 :=
  ⟨(claim_C3 witFs witTasks).2.2.1 witTasks.reverse (by decide),
   (claim_C3 witFs witTasks).2.2.2 (by decide) (by decide)⟩

/-- Claim C5: with the persisted mapping file absent (`none`, the
`os.path.exists` check on lines 233/276 that precedes any parse), both
relocation directions return the distinct `mappingMissing` outcome carrying
the actionable "generate it first" message, and no copy task is constructed
or executed. -/
theorem claim_C5 (fs : String → Bool) (wem_dir output_dir : String) :
    unobfuscate_from_mapping none fs wem_dir output_dir =
        RelocResult.mappingMissing missingMappingMsg
    ∧ obfuscate_from_mapping none fs wem_dir output_dir =
        RelocResult.mappingMissing missingMappingMsg
    ∧ (unobfuscate_from_mapping none fs wem_dir output_dir).tasks = []
    ∧ (obfuscate_from_mapping none fs wem_dir output_dir).tasks = []
    ∧ (unobfuscate_from_mapping none fs wem_dir output_dir).successCount = 0
    ∧ (obfuscate_from_mapping none fs wem_dir output_dir).successCount = 0 :=
  ⟨rfl, rfl, rfl, rfl, rfl, rfl⟩

/-- Claim C7: with vgmstream-cli present the analyzer's result-collection
loop reads the undefined name `future_to_task` (line 428) and the run raises
an unhandled `NameError`, so no analysis report is produced; the report is
produced exactly when vgmstream-cli is absent. -/
theorem claim_C7 (files : List FileRec) :
    find_ps4_wem_duplicates true files =
      Except.error "NameError: name 'future_to_task' is not defined"
    ∧ ∃ r, find_ps4_wem_duplicates false files = Except.ok r :=
  ⟨rfl, ⟨_, rfl⟩⟩

/-- Claim C1: every mapping entry processed by forward relocation gets the
destination `dest_root / dirname(debug_name) / stem(debug_name) +
ext(opaque_id)`: the built filename splits into exactly the debug name's stem
and the opaque id's extension, so its extension is never the debug name's own
extension when the two differ. -/
theorem claim_C1 (wem_dir output_dir media_path debug_name : String)
    (srcs : List String) (hdn : debug_name ≠ "")
    (hs : ('/' : Char) ∉ (splitext (basename debug_name)).1.toList)
    (hnd : ∃ c ∈ (splitext (basename debug_name)).1.toList, c ≠ '.')
    (hext : ∃ e, (splitext media_path).2.toList = '.' :: e
        ∧ ('.' : Char) ∉ e ∧ ('/' : Char) ∉ e) :
    unobTask wem_dir output_dir media_path ⟨some debug_name, srcs⟩ =
      some (normpath (joinP wem_dir media_path),
            normpath (joinP (joinP output_dir (dirname debug_name))
              (outputFilename media_path debug_name)))
    ∧ splitext (outputFilename media_path debug_name) =
        ((splitext (basename debug_name)).1, (splitext media_path).2)
    ∧ ((splitext (basename debug_name)).2 ≠ (splitext media_path).2 →
        (splitext (outputFilename media_path debug_name)).2 ≠
          (splitext (basename debug_name)).2) := by
  obtain ⟨e, he, he1, he2⟩ := hext
  have happ : (outputFilename media_path debug_name).toList =
      (splitext (basename debug_name)).1.toList ++ '.' :: e := by
    have : (outputFilename media_path debug_name).toList =
        (splitext (basename debug_name)).1.toList ++ (splitext media_path).2.toList := rfl
    rw [this, he]
  have hmain : splitext (outputFilename media_path debug_name) =
      ((splitext (basename debug_name)).1, (splitext media_path).2) := by
    have h1 : splitextL ((outputFilename media_path debug_name).toList) =
        ((splitext (basename debug_name)).1.toList, '.' :: e) := by
      rw [happ]
      exact splitextL_append _ _ hs hnd he1 he2
    have h2 : splitext (outputFilename media_path debug_name) =
        (String.mk (splitext (basename debug_name)).1.toList, String.mk ('.' :: e)) := by
      rw [splitext, h1]
    rw [h2, ← he]
    rfl
  refine ⟨by simp [unobTask, hdn], hmain, fun hne => ?_⟩
  rw [hmain]
  exact Ne.symm hne

theorem claim_C1_witness :
    (unobTask "src" "out" "Foo/123.wem" ⟨some "Bar/Line_01.wav", []⟩ =
        some (normpath (joinP "src" "Foo/123.wem"),
              normpath (joinP (joinP "out" (dirname "Bar/Line_01.wav"))
                (outputFilename "Foo/123.wem" "Bar/Line_01.wav")))
      ∧ splitext (outputFilename "Foo/123.wem" "Bar/Line_01.wav") =
          ((splitext (basename "Bar/Line_01.wav")).1, (splitext "Foo/123.wem").2)
      ∧ ((splitext (basename "Bar/Line_01.wav")).2 ≠ (splitext "Foo/123.wem").2 →
          (splitext (outputFilename "Foo/123.wem" "Bar/Line_01.wav")).2 ≠
            (splitext (basename "Bar/Line_01.wav")).2))
    ∧ unobTask "src" "out" "Foo/123.wem" ⟨some "Bar/Line_01.wav", []⟩ =
        some ("src/Foo/123.wem", "out/Bar/Line_01.wem") :=
  ⟨claim_C1 "src" "out" "Foo/123.wem" "Bar/Line_01.wav" [] (by decide) (by decide)
      (by decide) ⟨['w', 'e', 'm'], by decide, by decide, by decide⟩,
   by decide⟩

theorem dupsFor_append (d : String) (w1 w2 : List RelocWarn) :
    dupsFor d (w1 ++ w2) = dupsFor d w1 ++ dupsFor d w2 := by
  simp [dupsFor]

theorem lastOr_none (ms : List String) : lastOr none ms = ms.getLast? := by
  rw [lastOr]
  cases ms.getLast? <;> rfl

theorem lastOr_cons (seed : Option String) (m : String) (ms : List String) :
    lastOr seed (m :: ms) = lastOr (some m) ms := by
  cases ms with
  | nil => rfl
  | cons m2 ms =>
    rw [lastOr, lastOr, List.getLast?_cons_cons]
    cases hgl : (m2 :: ms).getLast? with
    | none => exact absurd (List.getLast?_eq_none_iff.mp hgl) (by simp)
    | some x => rfl

theorem mem_keys_of_lookup_some {β : Type} {d : List (String × β)} {k : String}
    {v : β} (h : dictLookup d k = some v) : k ∈ dictKeys d := by
  by_contra hk
  rw [← dictLookup_eq_none_iff d k] at hk
  rw [h] at hk
  cases hk

theorem dictKeys_dictSet {β : Type} (d : List (String × β)) (k : String) (v : β) :
    dictKeys (dictSet d k v) =
      if k ∈ dictKeys d then dictKeys d else dictKeys d ++ [k] := by
  induction d with
  | nil => simp [dictSet, dictKeys]
  | cons p d ih =>
    by_cases h : p.1 = k
    · simp [dictSet, dictKeys, h]
    · have h' : ¬ k = p.1 := fun hk => h hk.symm
      rw [show dictSet (p :: d) k v = p :: dictSet d k v from by
        obtain ⟨pk, pv⟩ := p
        simp only [dictSet]
        rw [if_neg h]]
      rw [show dictKeys (p :: dictSet d k v) = p.1 :: dictKeys (dictSet d k v) from rfl]
      rw [show dictKeys (p :: d) = p.1 :: dictKeys d from rfl]
      by_cases hm : k ∈ dictKeys d
      · rw [ih, if_pos hm, if_pos (List.mem_cons_of_mem _ hm)]
      · rw [ih, if_neg hm, if_neg (by simp [h', hm])]
        rfl

theorem nodup_dictKeys_dictSet {β : Type} {d : List (String × β)} {k : String}
    {v : β} (h : (dictKeys d).Nodup) : (dictKeys (dictSet d k v)).Nodup := by
  rw [dictKeys_dictSet]
  by_cases hm : k ∈ dictKeys d
  · simpa [hm] using h
  · simp only [hm, if_false]
    rw [List.nodup_append]
    exact ⟨h, List.nodup_singleton k, by simpa using hm⟩

theorem invFold_keys_nodup (mapping : List (String × MapEntry))
    (inv : List (String × String)) (ws : List RelocWarn)
    (h : (dictKeys inv).Nodup) :
    (dictKeys (mapping.foldl invStep (inv, ws)).1).Nodup := by
  induction mapping generalizing inv ws with
  | nil => exact h
  | cons p rest ih =>
    rw [List.foldl_cons]
    obtain ⟨mp, e⟩ := p
    cases he : e.DebugName with
    | none =>
      rw [show invStep (inv, ws) (mp, e) = (inv, ws ++ [RelocWarn.missingDebug mp]) from by
        simp [invStep, he]]
      exact ih inv _ h
    | some dn =>
      by_cases hdn : dn = ""
      · rw [show invStep (inv, ws) (mp, e) = (inv, ws ++ [RelocWarn.missingDebug mp]) from by
          simp [invStep, he, hdn]]
        exact ih inv _ h
      · cases hl : dictLookup inv dn with
        | some old =>
          rw [show invStep (inv, ws) (mp, e) =
              (dictSet inv dn mp, ws ++ [RelocWarn.dup dn mp old]) from by
            simp [invStep, he, hdn, hl]]
          exact ih _ _ (nodup_dictKeys_dictSet h)
        | none =>
          rw [show invStep (inv, ws) (mp, e) = (dictSet inv dn mp, ws) from by
            simp [invStep, he, hdn, hl]]
          exact ih _ _ (nodup_dictKeys_dictSet h)

theorem invStep_fold (d : String) (hd : d ≠ "") (mapping : List (String × MapEntry))
    (inv : List (String × String)) (ws : List RelocWarn) :
    dictLookup (mapping.foldl invStep (inv, ws)).1 d =
      lastOr (dictLookup inv d) (debugEntries d mapping)
    ∧ dupsFor d (mapping.foldl invStep (inv, ws)).2 =
      dupsFor d ws ++ chainWarns d (dictLookup inv d) (debugEntries d mapping) := by
  induction mapping generalizing inv ws with
  | nil => simp [debugEntries, lastOr, chainWarns]
  | cons p rest ih =>
    rw [List.foldl_cons]
    obtain ⟨mp, e⟩ := p
    cases he : e.DebugName with
    | none =>
      rw [show invStep (inv, ws) (mp, e) = (inv, ws ++ [RelocWarn.missingDebug mp]) from by
        simp [invStep, he]]
      rw [show debugEntries d ((mp, e) :: rest) = debugEntries d rest from by
        simp [debugEntries, he]]
      obtain ⟨ih1, ih2⟩ := ih inv (ws ++ [RelocWarn.missingDebug mp])
      refine ⟨ih1, ?_⟩
      rw [ih2, dupsFor_append]
      simp [dupsFor, RelocWarn.isDupFor, List.filter]
    | some dn =>
      by_cases hdn : dn = ""
      · rw [show invStep (inv, ws) (mp, e) = (inv, ws ++ [RelocWarn.missingDebug mp]) from by
          simp [invStep, he, hdn]]
        rw [show debugEntries d ((mp, e) :: rest) = debugEntries d rest from by
          simp [debugEntries, he, hdn]]
        obtain ⟨ih1, ih2⟩ := ih inv (ws ++ [RelocWarn.missingDebug mp])
        refine ⟨ih1, ?_⟩
        rw [ih2, dupsFor_append]
        simp [dupsFor, RelocWarn.isDupFor, List.filter]
      · by_cases hdd : dn = d
        · subst hdd
          rw [show debugEntries dn ((mp, e) :: rest) = mp :: debugEntries dn rest from by
            simp [debugEntries, he, hdn]]
          cases hl : dictLookup inv dn with
          | some old =>
            rw [show invStep (inv, ws) (mp, e) =
                (dictSet inv dn mp, ws ++ [RelocWarn.dup dn mp old]) from by
              simp [invStep, he, hdn, hl]]
            obtain ⟨ih1, ih2⟩ :=
              ih (dictSet inv dn mp) (ws ++ [RelocWarn.dup dn mp old])
            constructor
            · rw [ih1, dictLookup_dictSet, if_pos rfl, lastOr_cons]
            · rw [ih2, dictLookup_dictSet, if_pos rfl, dupsFor_append]
              rw [show chainWarns dn (some old) (mp :: debugEntries dn rest) =
                  RelocWarn.dup dn mp old :: chainWarns dn (some mp) (debugEntries dn rest)
                from rfl]
              rw [show dupsFor dn [RelocWarn.dup dn mp old] = [RelocWarn.dup dn mp old] from by
                simp [dupsFor, RelocWarn.isDupFor, List.filter]]
              simp
          | none =>
            rw [show invStep (inv, ws) (mp, e) = (dictSet inv dn mp, ws) from by
              simp [invStep, he, hdn, hl]]
            obtain ⟨ih1, ih2⟩ := ih (dictSet inv dn mp) ws
            constructor
            · rw [ih1, dictLookup_dictSet, if_pos rfl, lastOr_cons]
            · rw [ih2, dictLookup_dictSet, if_pos rfl]
              rfl
        · rw [show debugEntries d ((mp, e) :: rest) = debugEntries d rest from by
            simp [debugEntries, he, hdn, hdd]]
          have hset : dictLookup (dictSet inv dn mp) d = dictLookup inv d := by
            rw [dictLookup_dictSet, if_neg hdd]
          cases hl : dictLookup inv dn with
          | some old =>
            rw [show invStep (inv, ws) (mp, e) =
                (dictSet inv dn mp, ws ++ [RelocWarn.dup dn mp old]) from by
              simp [invStep, he, hdn, hl]]
            obtain ⟨ih1, ih2⟩ :=
              ih (dictSet inv dn mp) (ws ++ [RelocWarn.dup dn mp old])
            constructor
            · rw [ih1, hset]
            · rw [ih2, hset, dupsFor_append]
              rw [show dupsFor d [RelocWarn.dup dn mp old] = [] from by
                simp [dupsFor, RelocWarn.isDupFor, List.filter,
                  beq_eq_false_iff_ne.mpr hdd]]
              simp
          | none =>
            rw [show invStep (inv, ws) (mp, e) = (dictSet inv dn mp, ws) from by
              simp [invStep, he, hdn, hl]]
            obtain ⟨ih1, ih2⟩ := ih (dictSet inv dn mp) ws
            exact ⟨by rw [ih1, hset], by rw [ih2, hset]⟩

theorem chainWarns_length (d : String) (ms : List String) :
    ∀ prev, (chainWarns d (some prev) ms).length = ms.length := by
  induction ms with
  | nil => intro prev; rfl
  | cons m ms ih => intro prev; simp [chainWarns, ih]

theorem chainWarns_length_none (d : String) (ms : List String) :
    (chainWarns d none ms).length = ms.length - 1 := by
  cases ms with
  | nil => rfl
  | cons m ms => simp [chainWarns, chainWarns_length]

theorem chainWarns_discard (d : String) (ms : List String) :
    ∀ prev, (chainWarns d (some prev) ms).map RelocWarn.discard =
      (prev :: ms).dropLast := by
  induction ms with
  | nil => intro prev; rfl
  | cons m ms ih =>
    intro prev
    rw [show chainWarns d (some prev) (m :: ms) =
        RelocWarn.dup d m prev :: chainWarns d (some m) ms from rfl]
    rw [List.map_cons, ih m]
    rfl

theorem chainWarns_discard_none (d : String) (ms : List String) :
    (chainWarns d none ms).map RelocWarn.discard = ms.dropLast := by
  cases ms with
  | nil => rfl
  | cons m ms => rw [show chainWarns d none (m :: ms) = chainWarns d (some m) ms from rfl,
      chainWarns_discard]

/-- Claim C2: when `N ≥ 2` mapping entries share one (truthy) debug name,
reverse relocation's inverted table holds exactly one entry for that debug
name — the opaque id of the last such entry in iteration order — and exactly
`N - 1` duplicate warnings are logged, each naming as discarded the opaque id
it supersedes. -/
theorem claim_C2 (mapping : List (String × MapEntry)) (d : String) (N : Nat)
    (hd : d ≠ "") (hN : (debugEntries d mapping).length = N) (h2 : 2 ≤ N) :
    dictLookup (buildInverted mapping).1 d = (debugEntries d mapping).getLast?
    ∧ (dictKeys (buildInverted mapping).1).count d = 1
    ∧ (dupsFor d (buildInverted mapping).2).length = N - 1
    ∧ (dupsFor d (buildInverted mapping).2).map RelocWarn.discard =
        (debugEntries d mapping).dropLast := by
  obtain ⟨h1, hw⟩ := invStep_fold d hd mapping [] []
  rw [buildInverted]
  have hlk : dictLookup ([] : List (String × String)) d = none := rfl
  rw [hlk] at h1 hw
  rw [lastOr_none] at h1
  refine ⟨h1, ?_, ?_, ?_⟩
  · have hne : debugEntries d mapping ≠ [] := by
      intro hnil
      rw [hnil] at hN
      simp at hN
      omega
    have hlast : (debugEntries d mapping).getLast?.isSome := by
      cases hgl : (debugEntries d mapping).getLast? with
      | none => exact absurd (List.getLast?_eq_none_iff.mp hgl) hne
      | some x => rfl
    obtain ⟨x, hx⟩ := Option.isSome_iff_exists.mp hlast
    have hmem : d ∈ dictKeys (mapping.foldl invStep ([], [])).1 :=
      mem_keys_of_lookup_some (by rw [h1, hx])
    have hnd : (dictKeys (mapping.foldl invStep ([], [])).1).Nodup :=
      invFold_keys_nodup mapping [] [] (by simp [dictKeys])
    exact List.count_eq_one_of_mem hnd hmem
  · rw [hw]
    rw [show dupsFor d ([] : List RelocWarn) = [] from rfl]
    rw [List.nil_append, chainWarns_length_none, hN]
  · rw [hw]
    rw [show dupsFor d ([] : List RelocWarn) = [] from rfl]
    rw [List.nil_append, chainWarns_discard_none]

theorem claim_C2_witness :
    dictLookup (buildInverted witMapping).1 "Bar/Line.wav" =
        (debugEntries "Bar/Line.wav" witMapping).getLast?
    ∧ (dictKeys (buildInverted witMapping).1).count "Bar/Line.wav" = 1
    ∧ (dupsFor "Bar/Line.wav" (buildInverted witMapping).2).length = 2 - 1
    ∧ (dupsFor "Bar/Line.wav" (buildInverted witMapping).2).map RelocWarn.discard =
        (debugEntries "Bar/Line.wav" witMapping).dropLast :=
  claim_C2 witMapping "Bar/Line.wav" 2 (by decide) (by decide) (by decide)

/-- Claim C6: a completing analyzer run deletes, after writing the report,
exactly the files under the input tree whose name ends in `.wav`
(case-insensitively); every other file survives the cleanup pass, and the
analyzer is not read-only whenever a `.wav` file is present. -/
theorem claim_C6 (files : List FileRec) :
    (∀ f, f ∈ fsAfterOf files ↔ (f ∈ files ∧ isWavRec f = false))
    ∧ deletedOf files = files.countP isWavRec
    ∧ ((∃ f ∈ files, isWavRec f = true) → fsAfterOf files ≠ files) := by
  have hafter : fsAfterOf files = files.filter (fun r => !(isWavRec r)) := rfl
  refine ⟨?_, rfl, ?_⟩
  · intro f
    rw [hafter, List.mem_filter]
    simp
  · rintro ⟨f, hf, hw⟩ heq
    have hmem : f ∈ fsAfterOf files := by rw [heq]; exact hf
    rw [hafter, List.mem_filter, hw] at hmem
    simp at hmem

theorem claim_C6_witness :
    (∃ f ∈ witTree, isWavRec f = true)
    ∧ fsAfterOf witTree ≠ witTree
    ∧ deletedOf witTree = 1 :=
  ⟨by decide, (claim_C6 witTree).2.2 (by decide), by decide⟩

theorem scanMedia_eq (src : String)
    (mw : List (String × MapEntry) × List ScanWarn) (m : Media) :
    scanMedia src mw m =
      match mediaObs src m with
      | some o => scanObs mw o
      | none => mw := by
  cases h1 : m.MediaPathName with
  | none => simp [scanMedia, mediaObs, h1]
  | some mp =>
    cases h2 : m.DebugName with
    | none => simp [scanMedia, mediaObs, h1, h2]
    | some dn =>
      by_cases h3 : mp ≠ "" ∧ dn ≠ "" <;>
        simp [scanMedia, mediaObs, scanObs, h1, h2, h3]

theorem scanMedia_fold (src : String) (ms : List Media)
    (mw : List (String × MapEntry) × List ScanWarn) :
    ms.foldl (scanMedia src) mw =
      (ms.filterMap (mediaObs src)).foldl scanObs mw := by
  induction ms generalizing mw with
  | nil => rfl
  | cons m ms ih =>
    cases ho : mediaObs src m with
    | none =>
      have h1 : scanMedia src mw m = mw := by rw [scanMedia_eq, ho]
      rw [List.foldl_cons, h1, List.filterMap_cons, ho, ih]
    | some o =>
      have h1 : scanMedia src mw m = scanObs mw o := by rw [scanMedia_eq, ho]
      rw [List.foldl_cons, h1, List.filterMap_cons, ho, List.foldl_cons, ih]

theorem scanFile_eq (st : ScanState) (f : JsonFile) :
    scanFile st f =
      ⟨((fileObs f).foldl scanObs (st.mapping, st.warns)).1,
       ((fileObs f).foldl scanObs (st.mapping, st.warns)).2,
       st.errors ++ fileErrs f⟩ := by
  obtain ⟨m0, w0, e0⟩ := st
  cases hp : f.parse with
  | error e => simp [scanFile, hp, fileObs, fileErrs]
  | ok ms => simp [scanFile, hp, fileObs, fileErrs, scanMedia_fold]

theorem allObs_cons (f : JsonFile) (fs : List JsonFile) :
    allObs (f :: fs) = fileObs f ++ allObs fs := by
  simp [allObs]

theorem scanFiles_fold (files : List JsonFile) (st : ScanState) :
    files.foldl scanFile st =
      ⟨((allObs files).foldl scanObs (st.mapping, st.warns)).1,
       ((allObs files).foldl scanObs (st.mapping, st.warns)).2,
       st.errors ++ (files.map fileErrs).flatten⟩ := by
  induction files generalizing st with
  | nil => simp [allObs]
  | cons f fs ih =>
    rw [List.foldl_cons, scanFile_eq, ih, allObs_cons, List.foldl_append]
    simp

theorem allObs_filter_fileOk (files : List JsonFile) :
    allObs (files.filter fileOk) = allObs files := by
  induction files with
  | nil => rfl
  | cons f fs ih =>
    cases hp : f.parse with
    | error e =>
      have hok : fileOk f = false := by simp [fileOk, hp]
      have hobs : fileObs f = [] := by simp [fileObs, hp]
      rw [List.filter_cons_of_neg (by simp [hok]), ih, allObs_cons, hobs,
        List.nil_append]
    | ok ms =>
      have hok : fileOk f = true := by simp [fileOk, hp]
      rw [List.filter_cons_of_pos (by simp [hok]), allObs_cons, allObs_cons, ih]

theorem fileErrs_flatten_length (files : List JsonFile) :
    ((files.map fileErrs).flatten).length = files.countP (fun f => !(fileOk f)) := by
  induction files with
  | nil => rfl
  | cons f fs ih =>
    rw [List.map_cons, List.flatten_cons, List.length_append, ih, List.countP_cons]
    cases hp : f.parse with
    | error e =>
      simp [fileErrs, fileOk, hp]
      omega
    | ok ms => simp [fileErrs, fileOk, hp]

/-- Claim C9: a metadata file that fails to parse is logged (one error line
per bad file) and skipped: the resulting mapping and conflict warnings are
exactly those produced by scanning only the well-formed files, so one bad
file never prevents sibling files from being scanned and the scan (a total
fold) never aborts. -/
theorem claim_C9 (files : List JsonFile) :
    (generate_mapping_from_json files).1 =
      (generate_mapping_from_json (files.filter fileOk)).1
    ∧ (generate_mapping_from_json files).2.1 =
      (generate_mapping_from_json (files.filter fileOk)).2.1
    ∧ (generate_mapping_from_json files).2.2.length =
      files.countP (fun f => !(fileOk f)) := by
  have h1 := scanFiles_fold files ⟨[], [], []⟩
  have h2 := scanFiles_fold (files.filter fileOk) ⟨[], [], []⟩
  rw [generate_mapping_from_json, generate_mapping_from_json, h1, h2,
    allObs_filter_fileOk]
  exact ⟨rfl, rfl, by simpa using fileErrs_flatten_length files⟩

theorem scanObs_none (mw : List (String × MapEntry) × List ScanWarn) (o : Obs)
    (hl : dictLookup mw.1 o.mediaPath = none) :
    scanObs mw o = (mw.1 ++ [(o.mediaPath, newEntry o)], mw.2) := by
  obtain ⟨s, mp, dn⟩ := o
  simp only [scanObs, scanPair] at *
  rw [hl]
  rfl

theorem scanObs_some (mw : List (String × MapEntry) × List ScanWarn) (o : Obs)
    (e : MapEntry) (hl : dictLookup mw.1 o.mediaPath = some e) :
    scanObs mw o =
      (dictSet mw.1 o.mediaPath (stepEntry e o),
       if e.DebugName ≠ some o.debugName then
         mw.2 ++ [ScanWarn.conflict o.mediaPath o.debugName o.srcJson e.DebugName]
       else mw.2) := by
  obtain ⟨s, mp, dn⟩ := o
  simp only [scanObs, scanPair] at *
  rw [hl]
  by_cases hm : s ∈ e.SourceJsons <;> by_cases hc : e.DebugName ≠ some dn <;>
    simp [stepEntry, hm, hc]

theorem scanObs_keys_nodup (obs : List Obs)
    (mw : List (String × MapEntry) × List ScanWarn)
    (h : (dictKeys mw.1).Nodup) : (dictKeys (obs.foldl scanObs mw).1).Nodup := by
  induction obs generalizing mw with
  | nil => exact h
  | cons o os ih =>
    rw [List.foldl_cons]
    apply ih
    cases hl : dictLookup mw.1 o.mediaPath with
    | none =>
      rw [scanObs_none mw o hl]
      have hmem : o.mediaPath ∉ dictKeys mw.1 := (dictLookup_eq_none_iff _ _).mp hl
      have hk : dictKeys (mw.1 ++ [(o.mediaPath, newEntry o)]) =
          dictKeys mw.1 ++ [o.mediaPath] := by
        simp [dictKeys]
      rw [hk, List.nodup_append]
      exact ⟨h, List.nodup_singleton _, by simpa using hmem⟩
    | some e =>
      rw [scanObs_some mw o e hl]
      exact nodup_dictKeys_dictSet h

/-- Claim C10 counterexample: the scanner's output is not independent of the
order in which the metadata files are visited — two permutations of the same
two-document input (which carry conflicting debug names for one opaque id)
serialize different mappings, because the surviving `DebugName` is
last-write-wins. -/
theorem claim_C10_counterexample :
    [fileA, fileB].Perm [fileB, fileA]
    ∧ generate_mapping_from_json [fileA, fileB] ≠
        generate_mapping_from_json [fileB, fileA] :=
  ⟨List.Perm.swap fileB fileA [], by decide⟩

/-- Claim C10 (amended): the scanner is a pure function of the visited
document sequence, and its serialized output is canonical in form — the saved
table's keys are ascending and duplicate-free and every entry's `SourceJsons`
list is sorted; full independence from the visitation order fails when
entries with the same opaque id carry conflicting debug names
(last-write-wins on `DebugName`). -/
theorem claim_C10 (files : List JsonFile) :
    ((generate_mapping_from_json files).1.map Prod.fst).Sorted (· ≤ ·)
    ∧ ((generate_mapping_from_json files).1.map Prod.fst).Nodup
    ∧ (∀ p ∈ (generate_mapping_from_json files).1,
        p.2.SourceJsons.Sorted (· ≤ ·)) := by
  have hsf := scanFiles_fold files ⟨[], [], []⟩
  rw [generate_mapping_from_json, hsf]
  have hkeys : ∀ d : List (String × MapEntry),
      (finalizeMapping d).map Prod.fst = (sortByKey d).map Prod.fst := by
    intro d
    simp [finalizeMapping]
  refine ⟨?_, ?_, ?_⟩
  · rw [hkeys]
    exact List.pairwise_map.mpr (List.sorted_insertionSort _ _)
  · rw [hkeys]
    have hnd : (dictKeys (((allObs files).foldl scanObs ([], [])).1)).Nodup :=
      scanObs_keys_nodup _ _ (by simp [dictKeys])
    have hperm := (List.perm_insertionSort
      (fun (a b : String × MapEntry) => a.1 ≤ b.1) (((allObs files).foldl scanObs ([], [])).1)).map Prod.fst
    exact hperm.symm.nodup hnd
  · intro p hp
    rw [finalizeMapping, List.mem_map] at hp
    obtain ⟨q, hq, rfl⟩ := hp
    exact List.sorted_insertionSort _ _

theorem conflictsFor_append (mp : String) (w1 w2 : List ScanWarn) :
    conflictsFor mp (w1 ++ w2) = conflictsFor mp w1 ++ conflictsFor mp w2 := by
  simp [conflictsFor]

theorem dictLookup_append_of_ne {β : Type} (d : List (String × β))
    (k k' : String) (v : β) (h : k ≠ k') :
    dictLookup (d ++ [(k, v)]) k' = dictLookup d k' := by
  rw [dictLookup_append]
  cases hl : dictLookup d k' with
  | some w => rfl
  | none => simp [dictLookup, h]

theorem dictLookup_append_self {β : Type} (d : List (String × β)) (k : String)
    (v : β) (h : dictLookup d k = none) :
    dictLookup (d ++ [(k, v)]) k = some v := by
  rw [dictLookup_append, h]
  simp [dictLookup]

theorem scanObs_fold_lookup (mp : String) (obs : List Obs)
    (mw : List (String × MapEntry) × List ScanWarn) :
    dictLookup (obs.foldl scanObs mw).1 mp =
      combineEntry (dictLookup mw.1 mp) (obs.filter (fun o => o.mediaPath == mp))
    ∧ conflictsFor mp (obs.foldl scanObs mw).2 =
      conflictsFor mp mw.2 ++
        conflictChain mp (dictLookup mw.1 mp) (obs.filter (fun o => o.mediaPath == mp)) := by
  induction obs generalizing mw with
  | nil => simp [combineEntry, conflictChain]
  | cons o os ih =>
    rw [List.foldl_cons]
    by_cases ho : o.mediaPath = mp
    · rw [List.filter_cons_of_pos (by simp [ho])]
      cases hl : dictLookup mw.1 o.mediaPath with
      | none =>
        have hl0 : dictLookup mw.1 mp = none := by rw [← ho]; exact hl
        rw [scanObs_none mw o hl]
        obtain ⟨ih1, ih2⟩ := ih (mw.1 ++ [(o.mediaPath, newEntry o)], mw.2)
        have hl2 : dictLookup (mw.1 ++ [(o.mediaPath, newEntry o)]) mp = some (newEntry o) := by
          rw [← ho]
          exact dictLookup_append_self _ _ _ hl
        rw [hl2] at ih1 ih2
        rw [hl0]
        exact ⟨ih1, ih2⟩
      | some e =>
        have hl0 : dictLookup mw.1 mp = some e := by rw [← ho]; exact hl
        rw [scanObs_some mw o e hl]
        by_cases hc : e.DebugName ≠ some o.debugName
        · rw [if_pos hc]
          obtain ⟨ih1, ih2⟩ := ih (dictSet mw.1 o.mediaPath (stepEntry e o),
            mw.2 ++ [ScanWarn.conflict o.mediaPath o.debugName o.srcJson e.DebugName])
          have hl2 : dictLookup (dictSet mw.1 o.mediaPath (stepEntry e o)) mp =
              some (stepEntry e o) := by
            rw [dictLookup_dictSet, if_pos ho]
          rw [hl2] at ih1 ih2
          refine ⟨by rw [ih1, hl0]; rfl, ?_⟩
          rw [ih2, hl0, conflictsFor_append]
          rw [show conflictsFor mp [ScanWarn.conflict o.mediaPath o.debugName o.srcJson e.DebugName] =
              [ScanWarn.conflict o.mediaPath o.debugName o.srcJson e.DebugName] from by
            simp [conflictsFor, ScanWarn.mediaOf, List.filter, ho]]
          rw [show conflictChain mp (some e) (o :: os.filter (fun o => o.mediaPath == mp)) =
              ScanWarn.conflict mp o.debugName o.srcJson e.DebugName ::
                conflictChain mp (some (stepEntry e o)) (os.filter (fun o => o.mediaPath == mp)) from by
            rw [conflictChain, if_pos hc]]
          rw [ho]
          simp
        · rw [if_neg hc]
          obtain ⟨ih1, ih2⟩ := ih (dictSet mw.1 o.mediaPath (stepEntry e o), mw.2)
          have hl2 : dictLookup (dictSet mw.1 o.mediaPath (stepEntry e o)) mp =
              some (stepEntry e o) := by
            rw [dictLookup_dictSet, if_pos ho]
          rw [hl2] at ih1 ih2
          refine ⟨by rw [ih1, hl0]; rfl, ?_⟩
          rw [ih2, hl0]
          rw [show conflictChain mp (some e) (o :: os.filter (fun o => o.mediaPath == mp)) =
              conflictChain mp (some (stepEntry e o)) (os.filter (fun o => o.mediaPath == mp)) from by
            rw [conflictChain, if_neg hc]]
    · rw [List.filter_cons_of_neg (by simp [ho])]
      cases hl : dictLookup mw.1 o.mediaPath with
      | none =>
        rw [scanObs_none mw o hl]
        obtain ⟨ih1, ih2⟩ := ih (mw.1 ++ [(o.mediaPath, newEntry o)], mw.2)
        have hl2 : dictLookup (mw.1 ++ [(o.mediaPath, newEntry o)]) mp = dictLookup mw.1 mp :=
          dictLookup_append_of_ne _ _ _ _ ho
        rw [hl2] at ih1 ih2
        exact ⟨ih1, ih2⟩
      | some e =>
        rw [scanObs_some mw o e hl]
        have hl2 : dictLookup (dictSet mw.1 o.mediaPath (stepEntry e o)) mp =
            dictLookup mw.1 mp := by
          rw [dictLookup_dictSet, if_neg ho]
        by_cases hc : e.DebugName ≠ some o.debugName
        · rw [if_pos hc]
          obtain ⟨ih1, ih2⟩ := ih (dictSet mw.1 o.mediaPath (stepEntry e o),
            mw.2 ++ [ScanWarn.conflict o.mediaPath o.debugName o.srcJson e.DebugName])
          rw [hl2] at ih1 ih2
          refine ⟨ih1, ?_⟩
          rw [ih2, conflictsFor_append]
          rw [show conflictsFor mp [ScanWarn.conflict o.mediaPath o.debugName o.srcJson e.DebugName] =
              [] from by
            simp [conflictsFor, ScanWarn.mediaOf, List.filter, beq_eq_false_iff_ne.mpr ho]]
          simp
        · rw [if_neg hc]
          obtain ⟨ih1, ih2⟩ := ih (dictSet mw.1 o.mediaPath (stepEntry e o), mw.2)
          rw [hl2] at ih1 ih2
          exact ⟨ih1, ih2⟩

theorem combineEntry_some_eq (os : List Obs) : ∀ (e : MapEntry),
    combineEntry (some e) os = some (os.foldl stepEntry e) := by
  induction os with
  | nil => intro e; rfl
  | cons o os ih =>
    intro e
    rw [show combineEntry (some e) (o :: os) =
        combineEntry (some (stepEntry e o)) os from rfl, ih, List.foldl_cons]

theorem stepEntry_debug (e : MapEntry) (o : Obs) :
    (stepEntry e o).DebugName = some o.debugName := by
  rw [stepEntry]
  by_cases hm : o.srcJson ∈ e.SourceJsons <;>
    by_cases hc : e.DebugName = some o.debugName <;> simp [hm, hc]

theorem foldl_stepEntry_debug (os : List Obs) : ∀ (e : MapEntry),
    (os.foldl stepEntry e).DebugName =
      match os.getLast? with
      | some o => some o.debugName
      | none => e.DebugName := by
  induction os with
  | nil => intro e; rfl
  | cons o os ih =>
    intro e
    rw [List.foldl_cons, ih]
    cases os with
    | nil => simp [stepEntry_debug]
    | cons o2 os2 =>
      rw [List.getLast?_cons_cons]
      cases hgl : (o2 :: os2).getLast? with
      | none => exact absurd (List.getLast?_eq_none_iff.mp hgl) (by simp)
      | some x => rfl

theorem stepEntry_sources (e : MapEntry) (o : Obs) :
    (stepEntry e o).SourceJsons =
      if o.srcJson ∈ e.SourceJsons then e.SourceJsons
      else e.SourceJsons ++ [o.srcJson] := by
  rw [stepEntry]
  by_cases hm : o.srcJson ∈ e.SourceJsons <;>
    by_cases hc : e.DebugName = some o.debugName <;> simp [hm, hc]

theorem stepEntry_sources_mem (e : MapEntry) (o : Obs) (s : String) :
    s ∈ (stepEntry e o).SourceJsons ↔ (s ∈ e.SourceJsons ∨ s = o.srcJson) := by
  rw [stepEntry_sources]
  by_cases hm : o.srcJson ∈ e.SourceJsons
  · rw [if_pos hm]
    exact ⟨fun h => Or.inl h, fun h => h.elim id (fun hh => hh ▸ hm)⟩
  · rw [if_neg hm]
    simp

theorem stepEntry_sources_nodup (e : MapEntry) (o : Obs)
    (h : e.SourceJsons.Nodup) : (stepEntry e o).SourceJsons.Nodup := by
  rw [stepEntry_sources]
  by_cases hm : o.srcJson ∈ e.SourceJsons
  · rw [if_pos hm]; exact h
  · rw [if_neg hm, List.nodup_append]
    exact ⟨h, List.nodup_singleton _, by simpa using hm⟩

theorem foldl_stepEntry_sources_mem (os : List Obs) : ∀ (e : MapEntry) (s : String),
    s ∈ (os.foldl stepEntry e).SourceJsons ↔
      (s ∈ e.SourceJsons ∨ s ∈ os.map Obs.srcJson) := by
  induction os with
  | nil => intro e s; simp
  | cons o os ih =>
    intro e s
    rw [List.foldl_cons, ih, stepEntry_sources_mem]
    simp [or_assoc]

theorem foldl_stepEntry_sources_nodup (os : List Obs) : ∀ (e : MapEntry),
    e.SourceJsons.Nodup → (os.foldl stepEntry e).SourceJsons.Nodup := by
  induction os with
  | nil => intro e h; exact h
  | cons o os ih =>
    intro e h
    rw [List.foldl_cons]
    exact ih _ (stepEntry_sources_nodup e o h)

theorem dictLookup_eq_some_iff {β : Type} {d : List (String × β)}
    (hnd : (dictKeys d).Nodup) (k : String) (v : β) :
    dictLookup d k = some v ↔ (k, v) ∈ d := by
  induction d with
  | nil => simp [dictLookup]
  | cons p d ih =>
    obtain ⟨pk, pv⟩ := p
    have hnd' : (dictKeys d).Nodup := (List.nodup_cons.mp hnd).2
    have hpk : pk ∉ dictKeys d := (List.nodup_cons.mp hnd).1
    by_cases h : pk = k
    · subst h
      rw [show dictLookup ((pk, pv) :: d) pk = some pv from by simp [dictLookup]]
      constructor
      · intro h2
        rw [Option.some_inj] at h2
        subst h2
        exact List.mem_cons_self _ _
      · intro hmem
        rcases List.mem_cons.mp hmem with h2 | h2
        · rw [Option.some_inj]
          exact congrArg Prod.snd h2.symm
        · exact absurd (List.mem_map_of_mem Prod.fst h2) hpk
    · have h' : ¬ k = pk := fun hk => h hk.symm
      rw [show dictLookup ((pk, pv) :: d) k = dictLookup d k from by simp [dictLookup, h]]
      rw [ih hnd']
      constructor
      · exact List.mem_cons_of_mem _
      · intro hmem
        rcases List.mem_cons.mp hmem with h2 | h2
        · exact absurd (congrArg Prod.fst h2) h'
        · exact h2

theorem dictLookup_perm {β : Type} {d₁ d₂ : List (String × β)} (h : d₁.Perm d₂)
    (hnd : (dictKeys d₁).Nodup) (k : String) :
    dictLookup d₁ k = dictLookup d₂ k := by
  have hnd2 : (dictKeys d₂).Nodup := (h.map Prod.fst).nodup hnd
  cases hv : dictLookup d₁ k with
  | some v =>
    have hm : (k, v) ∈ d₂ := h.mem_iff.mp ((dictLookup_eq_some_iff hnd k v).mp hv)
    exact ((dictLookup_eq_some_iff hnd2 k v).mpr hm).symm
  | none =>
    symm
    rw [dictLookup_eq_none_iff] at hv ⊢
    intro hk
    exact hv ((h.map Prod.fst).mem_iff.mpr hk)

theorem dictLookup_map_entry {β γ : Type} (d : List (String × β)) (k : String)
    (g : β → γ) :
    dictLookup (d.map (fun p => (p.1, g p.2))) k = (dictLookup d k).map g := by
  induction d with
  | nil => rfl
  | cons p d ih =>
    by_cases h : p.1 = k <;> simp [dictLookup, h, ih]

theorem finalize_lookup (d : List (String × MapEntry))
    (hnd : (dictKeys d).Nodup) (k : String) :
    dictLookup (finalizeMapping d) k =
      (dictLookup d k).map
        (fun e => (⟨e.DebugName, sortStrings e.SourceJsons⟩ : MapEntry)) := by
  rw [finalizeMapping,
    dictLookup_map_entry (sortByKey d) k
      (fun e => (⟨e.DebugName, sortStrings e.SourceJsons⟩ : MapEntry))]
  have hperm : (sortByKey d).Perm d := List.perm_insertionSort _ d
  have hnds : (dictKeys (sortByKey d)).Nodup := (hperm.map Prod.fst).symm.nodup hnd
  rw [dictLookup_perm hperm hnds k]

theorem getLast?_cons_of_ne_nil {α : Type} (a : α) {l : List α} (h : l ≠ []) :
    (a :: l).getLast? = l.getLast? := by
  cases l with
  | nil => exact absurd rfl h
  | cons b l => rw [List.getLast?_cons_cons]

/-- Claim C4: for every opaque id observed at least once, the saved mapping
holds exactly one entry whose `DebugName` is the debug name of the last
observation (each observation conflicting with the currently stored debug
name having logged one warning, per `conflictChain`), and whose saved
`SourceJsons` is the sorted, duplicate-free union of every source JSON file
that asserted the id. -/
theorem claim_C4 (files : List JsonFile) (mp : String)
    (hne : obsFor mp files ≠ []) :
    ∃ e, dictLookup (generate_mapping_from_json files).1 mp = some e
      ∧ (∃ o, (obsFor mp files).getLast? = some o ∧ e.DebugName = some o.debugName)
      ∧ e.SourceJsons.Sorted (· ≤ ·)
      ∧ e.SourceJsons.Nodup
      ∧ (∀ s, s ∈ e.SourceJsons ↔ s ∈ (obsFor mp files).map Obs.srcJson)
      ∧ conflictsFor mp (generate_mapping_from_json files).2.1 =
          conflictChain mp none (obsFor mp files) := by
  have hsf := scanFiles_fold files ⟨[], [], []⟩
  obtain ⟨hf1, hf2⟩ := scanObs_fold_lookup mp (allObs files) ([], [])
  have hm : (generate_mapping_from_json files).1 =
      finalizeMapping (((allObs files).foldl scanObs ([], [])).1) := by
    rw [generate_mapping_from_json, hsf]
  have hw : (generate_mapping_from_json files).2.1 =
      ((allObs files).foldl scanObs ([], [])).2 := by
    rw [generate_mapping_from_json, hsf]
  have hobs : (allObs files).filter (fun o => o.mediaPath == mp) = obsFor mp files := rfl
  rw [hobs] at hf1 hf2
  rw [show dictLookup (([], []) : List (String × MapEntry) × List ScanWarn).1 mp = none
    from rfl] at hf1 hf2
  have hnd : (dictKeys (((allObs files).foldl scanObs ([], [])).1)).Nodup :=
    scanObs_keys_nodup _ _ (by simp [dictKeys])
  cases hos : obsFor mp files with
  | nil => exact absurd hos hne
  | cons o0 rest =>
    rw [hos] at hf1 hf2
    rw [show combineEntry none (o0 :: rest) =
        combineEntry (some (newEntry o0)) rest from rfl, combineEntry_some_eq] at hf1
    refine ⟨⟨(rest.foldl stepEntry (newEntry o0)).DebugName,
      sortStrings (rest.foldl stepEntry (newEntry o0)).SourceJsons⟩,
      ?_, ?_, ?_, ?_, ?_, ?_⟩
    · rw [hm, finalize_lookup _ hnd, hf1]
      rfl
    · have hd := foldl_stepEntry_debug rest (newEntry o0)
      cases hgl : rest.getLast? with
      | none =>
        have hrest : rest = [] := List.getLast?_eq_none_iff.mp hgl
        subst hrest
        exact ⟨o0, rfl, rfl⟩
      | some x =>
        have hrest : rest ≠ [] := by
          intro hr
          rw [hr] at hgl
          cases hgl
        rw [hgl] at hd
        refine ⟨x, ?_, ?_⟩
        · rw [getLast?_cons_of_ne_nil o0 hrest, hgl]
        · exact hd
    · exact List.sorted_insertionSort _ _
    · have hnd0 : (rest.foldl stepEntry (newEntry o0)).SourceJsons.Nodup :=
        foldl_stepEntry_sources_nodup rest (newEntry o0) (by simp [newEntry])
      exact (List.perm_insertionSort _ _).symm.nodup hnd0
    · intro s
      show s ∈ sortStrings ((rest.foldl stepEntry (newEntry o0)).SourceJsons) ↔ _
      rw [sortStrings, (List.perm_insertionSort _ _).mem_iff, foldl_stepEntry_sources_mem]
      simp [newEntry]
    · rw [hw, hf2]
      rw [show conflictsFor mp ((([], []) : List (String × MapEntry) × List ScanWarn).2) = []
        from rfl]
      rw [List.nil_append]

theorem claim_C4_witness :
    ∃ e, dictLookup (generate_mapping_from_json witScanFiles).1 "m.wem" = some e
      ∧ (∃ o, (obsFor "m.wem" witScanFiles).getLast? = some o
          ∧ e.DebugName = some o.debugName)
      ∧ e.SourceJsons.Sorted (· ≤ ·)
      ∧ e.SourceJsons.Nodup
      ∧ (∀ s, s ∈ e.SourceJsons ↔ s ∈ (obsFor "m.wem" witScanFiles).map Obs.srcJson)
      ∧ conflictsFor "m.wem" (generate_mapping_from_json witScanFiles).2.1 =
          conflictChain "m.wem" none (obsFor "m.wem" witScanFiles) :=
  claim_C4 witScanFiles "m.wem" (by decide)

theorem dictLookup_cons {β : Type} (pk : String) (pv : β) (d : List (String × β))
    (k : String) :
    dictLookup ((pk, pv) :: d) k = if pk = k then some pv else dictLookup d k := rfl

theorem dictLookup_map_if {β : Type} (d : List (String × β)) (k k' : String)
    (f : β → β) :
    dictLookup (d.map (fun p => if p.1 = k then (p.1, f p.2) else p)) k' =
      if k = k' then (dictLookup d k').map f else dictLookup d k' := by
  induction d with
  | nil => by_cases h : k = k' <;> simp [dictLookup, h]
  | cons p d ih =>
    obtain ⟨pk, pv⟩ := p
    rw [List.map_cons]
    by_cases h1 : pk = k
    · rw [show (if (pk, pv).1 = k then ((pk, pv).1, f (pk, pv).2) else (pk, pv)) =
          (pk, f pv) from by rw [if_pos h1]]
      rw [dictLookup_cons, dictLookup_cons, ih]
      by_cases h2 : pk = k'
      · have hkk : k = k' := h1.symm.trans h2
        rw [if_pos h2, if_pos hkk, if_pos h2]
        rfl
      · have hkk : ¬ k = k' := fun hh => h2 (h1.trans hh)
        rw [if_neg h2, if_neg hkk, if_neg hkk, if_neg h2]
    · rw [show (if (pk, pv).1 = k then ((pk, pv).1, f (pk, pv).2) else (pk, pv)) =
          (pk, pv) from by rw [if_neg h1]]
      rw [dictLookup_cons, dictLookup_cons, ih]
      by_cases h2 : pk = k'
      · have hkk : ¬ k = k' := fun hh => h1 (h2.trans hh.symm)
        rw [if_pos h2, if_neg hkk, if_pos h2]
      · rw [if_neg h2]
        by_cases h3 : k = k'
        · rw [if_pos h3, if_pos h3, if_neg h2]
        · rw [if_neg h3, if_neg h3, if_neg h2]

theorem dictLookup_dictUpdate {β : Type} (d : List (String × β)) (k k' : String)
    (dflt : β) (f : β → β) :
    dictLookup (dictUpdate d k dflt f) k' =
      if k = k' then some (f ((dictLookup d k).getD dflt))
      else dictLookup d k' := by
  rw [dictUpdate]
  cases hl : dictLookup d k with
  | some v =>
    rw [dictLookup_map_if]
    by_cases h : k = k'
    · subst h
      rw [if_pos rfl, if_pos rfl, hl]
      rfl
    · rw [if_neg h, if_neg h]
  | none =>
    by_cases h : k = k'
    · subst h
      rw [dictLookup_append_self d k (f dflt) hl, if_pos rfl]
      rfl
    · rw [dictLookup_append_of_ne d k k' (f dflt) h, if_neg h]

theorem dictKeys_dictUpdate {β : Type} (d : List (String × β)) (k : String)
    (dflt : β) (f : β → β) :
    dictKeys (dictUpdate d k dflt f) =
      match dictLookup d k with
      | some _ => dictKeys d
      | none => dictKeys d ++ [k] := by
  rw [dictUpdate]
  cases hl : dictLookup d k with
  | some v =>
    rw [dictKeys, dictKeys, List.map_map]
    apply List.map_congr_left
    intro p _
    by_cases h : p.1 = k <;> simp [h]
  | none => simp [dictKeys]

theorem nodup_dictKeys_dictUpdate {β : Type} {d : List (String × β)} {k : String}
    {dflt : β} {f : β → β} (h : (dictKeys d).Nodup) :
    (dictKeys (dictUpdate d k dflt f)).Nodup := by
  rw [dictKeys_dictUpdate]
  cases hl : dictLookup d k with
  | some v => exact h
  | none =>
    rw [List.nodup_append]
    have hk : k ∉ dictKeys d := (dictLookup_eq_none_iff _ _).mp hl
    exact ⟨h, List.nodup_singleton _, by simpa using hk⟩

theorem dictUpdate_values {β : Type} (d : List (String × β)) (k : String)
    (dflt : β) (f : β → β) (Q : β → Prop)
    (hd : ∀ p ∈ d, Q p.2) (hf : ∀ m, Q m → Q (f m)) (hdflt : Q dflt) :
    ∀ p ∈ dictUpdate d k dflt f, Q p.2 := by
  rw [dictUpdate]
  cases hl : dictLookup d k with
  | some v =>
    intro p hp
    rw [List.mem_map] at hp
    obtain ⟨q, hq, hpq⟩ := hp
    by_cases h : q.1 = k
    · rw [if_pos h] at hpq
      rw [← hpq]
      exact hf _ (hd q hq)
    · rw [if_neg h] at hpq
      rw [← hpq]
      exact hd q hq
  | none =>
    intro p hp
    rcases List.mem_append.mp hp with h | h
    · exact hd p h
    · rw [List.mem_singleton] at h
      rw [h]
      exact hf _ hdflt

theorem infoFold_lookup (files : List FileRec) (F : String) :
    ∀ (d : List (String × FileInfo)),
    dictLookup (files.foldl infoStep d) F =
      ((files.filter isWemRec).filter (fun r => basename r.relPath == F)).foldl
        (fun acc r => some (infoApply r (acc.getD ⟨[], [], 0⟩)))
        (dictLookup d F) := by
  induction files with
  | nil => intro d; rfl
  | cons r files ih =>
    intro d
    rw [List.foldl_cons]
    by_cases hw : isWemRec r
    · rw [show infoStep d r = dictUpdate d (basename r.relPath) ⟨[], [], 0⟩ (infoApply r)
        from by rw [infoStep, if_pos hw]]
      rw [List.filter_cons_of_pos hw]
      by_cases hF : basename r.relPath = F
      · rw [List.filter_cons_of_pos (by simp [hF]), List.foldl_cons, ih]
        rw [dictLookup_dictUpdate, if_pos hF, hF]
      · rw [List.filter_cons_of_neg (by simp [hF]), ih]
        rw [dictLookup_dictUpdate, if_neg hF]
    · rw [show infoStep d r = d from by rw [infoStep, if_neg hw]]
      rw [List.filter_cons_of_neg (by simpa using hw), ih]

theorem occFold_some (rs : List FileRec) : ∀ (i : FileInfo),
    rs.foldl (fun acc r => some (infoApply r (acc.getD ⟨[], [], 0⟩))) (some i) =
      some (rs.foldl (fun j r => infoApply r j) i) := by
  induction rs with
  | nil => intro i; rfl
  | cons r rs ih => intro i; rw [List.foldl_cons, List.foldl_cons]; exact ih _

theorem infoFoldl_paths (rs : List FileRec) : ∀ (i : FileInfo),
    (rs.foldl (fun j r => infoApply r j) i).paths = i.paths ++ rs.map FileRec.relPath := by
  induction rs with
  | nil => intro i; simp
  | cons r rs ih =>
    intro i
    rw [List.foldl_cons, ih]
    simp [infoApply]

theorem infoFoldl_size (rs : List FileRec) : ∀ (i : FileInfo),
    (rs.foldl (fun j r => infoApply r j) i).size =
      match rs.getLast? with
      | some r => r.size
      | none => i.size := by
  induction rs with
  | nil => intro i; rfl
  | cons r rs ih =>
    intro i
    rw [List.foldl_cons, ih]
    cases rs with
    | nil => simp [infoApply]
    | cons r2 rs2 =>
      rw [List.getLast?_cons_cons]
      cases hgl : (r2 :: rs2).getLast? with
      | none => exact absurd (List.getLast?_eq_none_iff.mp hgl) (by simp)
      | some x => rfl

theorem infoFoldl_cats (rs : List FileRec) : ∀ (i : FileInfo),
    (rs.foldl (fun j r => infoApply r j) i).all_categories =
      rs.foldl
        (fun acc r =>
          if matchCategory r.parentDir ∈ acc then acc
          else acc ++ [matchCategory r.parentDir])
        i.all_categories := by
  induction rs with
  | nil => intro i; rfl
  | cons r rs ih =>
    intro i
    rw [List.foldl_cons, ih, List.foldl_cons]
    by_cases h : matchCategory r.parentDir ∈ i.all_categories <;> simp [infoApply, h]

theorem infoFold_keys_nodup (files : List FileRec) :
    ∀ (d : List (String × FileInfo)), (dictKeys d).Nodup →
    (dictKeys (files.foldl infoStep d)).Nodup := by
  induction files with
  | nil => intro d h; exact h
  | cons r files ih =>
    intro d h
    rw [List.foldl_cons]
    apply ih
    by_cases hw : isWemRec r
    · rw [show infoStep d r = dictUpdate d (basename r.relPath) ⟨[], [], 0⟩ (infoApply r)
        from by rw [infoStep, if_pos hw]]
      exact nodup_dictKeys_dictUpdate h
    · rw [show infoStep d r = d from by rw [infoStep, if_neg hw]]
      exact h

theorem dictLookup2_eq_getD (cd : List (String × List (String × CatEntry)))
    (c F : String) :
    dictLookup2 cd c F = dictLookup ((dictLookup cd c).getD []) F := by
  cases hl : dictLookup cd c with
  | some m => rw [dictLookup2, hl]; rfl
  | none => rw [dictLookup2, hl]; rfl

theorem dictLookup2_catIns (fname : String) (e : CatEntry)
    (cd : List (String × List (String × CatEntry))) (cat c F : String) :
    dictLookup2 (catIns fname e cd cat) c F =
      if cat = c then
        (match dictLookup ((dictLookup cd c).getD []) fname with
         | some _ => dictLookup ((dictLookup cd c).getD []) F
         | none => dictLookup (((dictLookup cd c).getD []) ++ [(fname, e)]) F)
      else dictLookup2 cd c F := by
  rw [catIns, dictLookup2, dictLookup_dictUpdate]
  by_cases hcat : cat = c
  · subst hcat
    rw [if_pos rfl, if_pos rfl]
    cases hfn : dictLookup ((dictLookup cd cat).getD []) fname with
    | some val => rfl
    | none => rfl
  · rw [if_neg hcat, if_neg hcat, dictLookup2]

theorem catIns_preserve (fname : String) (e : CatEntry)
    (cd : List (String × List (String × CatEntry))) (cat c F : String)
    (x : CatEntry) (h : dictLookup2 cd c F = some x) :
    dictLookup2 (catIns fname e cd cat) c F = some x := by
  rw [dictLookup2_catIns]
  by_cases hcat : cat = c
  · rw [if_pos hcat]
    rw [dictLookup2_eq_getD] at h
    cases hfn : dictLookup ((dictLookup cd c).getD []) fname with
    | some val => exact h
    | none =>
      have hfF : fname ≠ F := by
        intro hh
        rw [hh, h] at hfn
        cases hfn
      show dictLookup (((dictLookup cd c).getD []) ++ [(fname, e)]) F = some x
      rw [dictLookup_append_of_ne _ _ _ _ hfF]
      exact h
  · rw [if_neg hcat]
    exact h

theorem catIns_other (fname : String) (e : CatEntry)
    (cd : List (String × List (String × CatEntry))) (cat c F : String)
    (hfF : fname ≠ F) :
    dictLookup2 (catIns fname e cd cat) c F = dictLookup2 cd c F := by
  rw [dictLookup2_catIns]
  by_cases hcat : cat = c
  · rw [if_pos hcat, dictLookup2_eq_getD]
    cases hfn : dictLookup ((dictLookup cd c).getD []) fname with
    | some val => rfl
    | none =>
      show dictLookup (((dictLookup cd c).getD []) ++ [(fname, e)]) F =
        dictLookup ((dictLookup cd c).getD []) F
      exact dictLookup_append_of_ne _ _ _ _ hfF
  · rw [if_neg hcat]

theorem catIns_self (e : CatEntry)
    (cd : List (String × List (String × CatEntry))) (cat c F : String)
    (h : dictLookup2 cd c F = none) :
    dictLookup2 (catIns F e cd cat) c F = if cat = c then some e else none := by
  rw [dictLookup2_catIns]
  by_cases hcat : cat = c
  · rw [if_pos hcat, if_pos hcat]
    rw [dictLookup2_eq_getD] at h
    rw [h]
    show dictLookup (((dictLookup cd c).getD []) ++ [(F, e)]) F = some e
    exact dictLookup_append_self _ _ _ h
  · rw [if_neg hcat, if_neg hcat]
    exact h

theorem catIns_fold_preserve (cl : List String) (fname : String) (e : CatEntry)
    (c F : String) (x : CatEntry) :
    ∀ cd, dictLookup2 cd c F = some x →
    dictLookup2 (cl.foldl (catIns fname e) cd) c F = some x := by
  induction cl with
  | nil => intro cd h; exact h
  | cons cat cl ih =>
    intro cd h
    rw [List.foldl_cons]
    exact ih _ (catIns_preserve fname e cd cat c F x h)

theorem catIns_fold_other (cl : List String) (fname : String) (e : CatEntry)
    (c F : String) (hfF : fname ≠ F) :
    ∀ cd, dictLookup2 (cl.foldl (catIns fname e) cd) c F = dictLookup2 cd c F := by
  induction cl with
  | nil => intro cd; rfl
  | cons cat cl ih =>
    intro cd
    rw [List.foldl_cons, ih, catIns_other fname e cd cat c F hfF]

theorem catIns_fold_self (cl : List String) (e : CatEntry) (c F : String) :
    ∀ cd, dictLookup2 cd c F = none →
    dictLookup2 (cl.foldl (catIns F e) cd) c F = if c ∈ cl then some e else none := by
  induction cl with
  | nil => intro cd h; simpa using h
  | cons cat cl ih =>
    intro cd h
    rw [List.foldl_cons]
    by_cases hcat : cat = c
    · have hstep : dictLookup2 (catIns F e cd cat) c F = some e := by
        rw [catIns_self e cd cat c F h, if_pos hcat]
      rw [catIns_fold_preserve cl F e c F e _ hstep]
      rw [if_pos (by rw [hcat]; exact List.mem_cons_self c cl)]
    · have hstep : dictLookup2 (catIns F e cd cat) c F = none := by
        rw [catIns_self e cd cat c F h, if_neg hcat]
      rw [ih _ hstep]
      have hm : c ∈ cat :: cl ↔ c ∈ cl := by
        rw [List.mem_cons]
        constructor
        · rintro (hh | hh)
          · exact absurd hh.symm hcat
          · exact hh
        · exact Or.inr
      by_cases h2 : c ∈ cl
      · rw [if_pos h2, if_pos (hm.mpr h2)]
      · rw [if_neg h2, if_neg (fun hh => h2 (hm.mp hh))]

theorem catStep_preserve (durs : List (String × String))
    (cd : List (String × List (String × CatEntry))) (p : String × FileInfo)
    (c F : String) (x : CatEntry) (h : dictLookup2 cd c F = some x) :
    dictLookup2 (catStep durs cd p) c F = some x :=
  catIns_fold_preserve _ _ _ _ _ _ _ h

theorem catStep_other (durs : List (String × String))
    (cd : List (String × List (String × CatEntry))) (p : String × FileInfo)
    (c F : String) (hfF : p.1 ≠ F) :
    dictLookup2 (catStep durs cd p) c F = dictLookup2 cd c F :=
  catIns_fold_other _ _ _ _ _ hfF _

theorem catStep_self (durs : List (String × String))
    (cd : List (String × List (String × CatEntry))) (fi : FileInfo)
    (c F : String) (h : dictLookup2 cd c F = none) :
    dictLookup2 (catStep durs cd (F, fi)) c F =
      if c ∈ sortStrings fi.all_categories then some (catEntryOf durs fi)
      else none :=
  catIns_fold_self _ _ _ _ _ h

theorem catFold_preserve (infoL : List (String × FileInfo))
    (durs : List (String × String)) (c F : String) (x : CatEntry) :
    ∀ cd, dictLookup2 cd c F = some x →
    dictLookup2 (infoL.foldl (catStep durs) cd) c F = some x := by
  induction infoL with
  | nil => intro cd h; exact h
  | cons p rest ih =>
    intro cd h
    rw [List.foldl_cons]
    exact ih _ (catStep_preserve durs cd p c F x h)

theorem catFold_other (infoL : List (String × FileInfo))
    (durs : List (String × String)) (c F : String)
    (hfree : ∀ p ∈ infoL, p.1 ≠ F) :
    ∀ cd, dictLookup2 (infoL.foldl (catStep durs) cd) c F = dictLookup2 cd c F := by
  induction infoL with
  | nil => intro cd; rfl
  | cons p rest ih =>
    intro cd
    rw [List.foldl_cons]
    rw [ih (fun q hq => hfree q (List.mem_cons_of_mem p hq))]
    exact catStep_other durs cd p c F (hfree p (List.mem_cons_self p rest))

theorem catFold_main (infoL : List (String × FileInfo))
    (durs : List (String × String)) (c F : String) (fi : FileInfo) :
    (F, fi) ∈ infoL → (dictKeys infoL).Nodup →
    ∀ cd, dictLookup2 cd c F = none →
    dictLookup2 (infoL.foldl (catStep durs) cd) c F =
      if c ∈ sortStrings fi.all_categories then some (catEntryOf durs fi)
      else none := by
  induction infoL with
  | nil => intro hmem; cases hmem
  | cons p rest ih =>
    intro hmem hnd cd h
    have hndr : (dictKeys rest).Nodup := (List.nodup_cons.mp hnd).2
    have hhead : p.1 ∉ dictKeys rest := (List.nodup_cons.mp hnd).1
    rw [List.foldl_cons]
    by_cases hp : p.1 = F
    · have hpe : p = (F, fi) := by
        rcases List.mem_cons.mp hmem with hh | hh
        · exact hh.symm
        · exfalso
          apply hhead
          have hmF : F ∈ dictKeys rest := List.mem_map_of_mem Prod.fst hh
          rw [← hp] at hmF
          exact hmF
      subst hpe
      have hfree : ∀ q ∈ rest, q.1 ≠ F := by
        intro q hq hqF
        apply hhead
        have hq1 : q.1 ∈ dictKeys rest := List.mem_map_of_mem Prod.fst hq
        rw [hqF] at hq1
        exact hq1
      have hstep := catStep_self durs cd fi c F h
      by_cases hc : c ∈ sortStrings fi.all_categories
      · rw [if_pos hc] at hstep
        rw [catFold_preserve rest durs c F _ _ hstep, if_pos hc]
      · rw [if_neg hc] at hstep
        rw [catFold_other rest durs c F hfree _, hstep, if_neg hc]
    · have hmem' : (F, fi) ∈ rest := by
        rcases List.mem_cons.mp hmem with hh | hh
        · exact absurd (congrArg Prod.fst hh).symm hp
        · exact hh
      have hstep : dictLookup2 (catStep durs cd p) c F = none := by
        rw [catStep_other durs cd p c F hp]
        exact h
      exact ih hmem' hndr _ hstep

theorem catIns_keys_nodup (fname : String) (e : CatEntry)
    (cd : List (String × List (String × CatEntry))) (cat : String)
    (h : (dictKeys cd).Nodup) : (dictKeys (catIns fname e cd cat)).Nodup :=
  nodup_dictKeys_dictUpdate h

theorem catIns_fold_keys_nodup (cl : List String) (fname : String) (e : CatEntry) :
    ∀ cd, (dictKeys cd).Nodup →
    (dictKeys (cl.foldl (catIns fname e) cd)).Nodup := by
  induction cl with
  | nil => intro cd h; exact h
  | cons cat cl ih =>
    intro cd h
    rw [List.foldl_cons]
    exact ih _ (catIns_keys_nodup fname e cd cat h)

theorem catFold_keys_nodup (infoL : List (String × FileInfo))
    (durs : List (String × String)) :
    ∀ cd, (dictKeys cd).Nodup →
    (dictKeys (infoL.foldl (catStep durs) cd)).Nodup := by
  induction infoL with
  | nil => intro cd h; exact h
  | cons p rest ih =>
    intro cd h
    rw [List.foldl_cons]
    exact ih _ (catIns_fold_keys_nodup _ _ _ cd h)

theorem catIns_inner_nodup (fname : String) (e : CatEntry)
    (cd : List (String × List (String × CatEntry))) (cat : String)
    (h : ∀ p ∈ cd, (dictKeys p.2).Nodup) :
    ∀ p ∈ catIns fname e cd cat, (dictKeys p.2).Nodup := by
  rw [catIns]
  refine dictUpdate_values _ _ _ _ (fun m => (dictKeys m).Nodup) h ?_ ?_
  · intro m hm
    cases hfn : dictLookup m fname with
    | some v => exact hm
    | none =>
      show (dictKeys (m ++ [(fname, e)])).Nodup
      rw [show dictKeys (m ++ [(fname, e)]) = dictKeys m ++ [fname] from by
        simp [dictKeys]]
      rw [List.nodup_append]
      exact ⟨hm, List.nodup_singleton _,
        by simpa using (dictLookup_eq_none_iff m fname).mp hfn⟩
  · simp [dictKeys]

theorem catIns_fold_inner_nodup (cl : List String) (fname : String) (e : CatEntry) :
    ∀ cd, (∀ p ∈ cd, (dictKeys p.2).Nodup) →
    ∀ p ∈ cl.foldl (catIns fname e) cd, (dictKeys p.2).Nodup := by
  induction cl with
  | nil => intro cd h; exact h
  | cons cat cl ih =>
    intro cd h
    rw [List.foldl_cons]
    exact ih _ (catIns_inner_nodup fname e cd cat h)

theorem catFold_inner_nodup (infoL : List (String × FileInfo))
    (durs : List (String × String)) :
    ∀ cd, (∀ p ∈ cd, (dictKeys p.2).Nodup) →
    ∀ p ∈ infoL.foldl (catStep durs) cd, (dictKeys p.2).Nodup := by
  induction infoL with
  | nil => intro cd h; exact h
  | cons q rest ih =>
    intro cd h
    rw [List.foldl_cons]
    exact ih _ (catIns_fold_inner_nodup _ _ _ cd h)

theorem filter_beq_nil (l : List String) (a : String) (h : a ∉ l) :
    l.filter (fun c => c == a) = [] := by
  induction l with
  | nil => rfl
  | cons b l ih =>
    have hb : b ≠ a := fun hh => h (hh ▸ List.mem_cons_self b l)
    have hl : a ∉ l := fun hm => h (List.mem_cons_of_mem b hm)
    simp [List.filter_cons, hb, ih hl]

theorem filter_beq_of_nodup (a : String) : ∀ (l : List String), l.Nodup → a ∈ l →
    l.filter (fun c => c == a) = [a] := by
  intro l
  induction l with
  | nil => intro _ ha; cases ha
  | cons b l ih =>
    intro hnd ha
    have hndl : l.Nodup := (List.nodup_cons.mp hnd).2
    have hbl : b ∉ l := (List.nodup_cons.mp hnd).1
    by_cases hb : b = a
    · subst hb
      simp [List.filter_cons, filter_beq_nil l b hbl]
    · have ha' : a ∈ l := by
        rcases List.mem_cons.mp ha with hh | hh
        · exact absurd hh.symm hb
        · exact hh
      simp [List.filter_cons, hb, ih hndl ha']

theorem sortedCatKeys_perm (cd : List (String × List (String × CatEntry)))
    (hnd : (dictKeys cd).Nodup) : (sortedCatKeys cd).Perm (dictKeys cd) := by
  rw [sortedCatKeys]
  have hsp : (sortStrings (dictKeys cd)).Perm (dictKeys cd) :=
    List.perm_insertionSort _ _
  by_cases ho : other_category ∈ sortStrings (dictKeys cd)
  · rw [if_pos ho]
    have hnds : (sortStrings (dictKeys cd)).Nodup := hsp.symm.nodup hnd
    have hsplit := List.filter_append_perm (fun c => c != other_category)
      (sortStrings (dictKeys cd))
    have hneg : (sortStrings (dictKeys cd)).filter (fun c => !(c != other_category)) =
        [other_category] := by
      rw [show (fun c => !(c != other_category)) = (fun c => c == other_category) from by
        funext c
        simp [bne]]
      exact filter_beq_of_nodup other_category _ hnds ho
    rw [← hneg]
    exact hsplit.trans hsp
  · rw [if_neg ho]
    exact hsp

theorem lookup_filterMap_transform (cl : List String)
    (cd : List (String × List (String × CatEntry)))
    (t : List (String × CatEntry) → List (String × CatEntry)) (c : String) :
    cl.Nodup →
    dictLookup (cl.filterMap (fun q => (dictLookup cd q).map (fun m => (q, t m)))) c =
      if c ∈ cl then (dictLookup cd c).map t else none := by
  induction cl with
  | nil => intro _; simp [dictLookup]
  | cons c0 cl ih =>
    intro hnd
    have hndl : cl.Nodup := (List.nodup_cons.mp hnd).2
    have hc0 : c0 ∉ cl := (List.nodup_cons.mp hnd).1
    rw [List.filterMap_cons]
    cases hg : dictLookup cd c0 with
    | some m0 =>
      show dictLookup ((c0, t m0) ::
        cl.filterMap (fun q => (dictLookup cd q).map (fun m => (q, t m)))) c = _
      rw [dictLookup_cons, ih hndl]
      by_cases h : c0 = c
      · subst h
        rw [if_pos rfl, if_pos (List.mem_cons_self c0 cl), hg]
        rfl
      · rw [if_neg h]
        by_cases h2 : c ∈ cl
        · rw [if_pos h2, if_pos (List.mem_cons_of_mem c0 h2)]
        · rw [if_neg h2, if_neg (by
            intro hm
            rcases List.mem_cons.mp hm with hh | hh
            · exact h hh.symm
            · exact h2 hh)]
    | none =>
      show dictLookup
        (cl.filterMap (fun q => (dictLookup cd q).map (fun m => (q, t m)))) c = _
      rw [ih hndl]
      by_cases h : c0 = c
      · subst h
        rw [if_neg hc0, if_pos (List.mem_cons_self c0 cl), hg]
        rfl
      · by_cases h2 : c ∈ cl
        · rw [if_pos h2, if_pos (List.mem_cons_of_mem c0 h2)]
        · rw [if_neg h2, if_neg (by
            intro hm
            rcases List.mem_cons.mp hm with hh | hh
            · exact h hh.symm
            · exact h2 hh)]

theorem sortReport_lookup2 (cd : List (String × List (String × CatEntry)))
    (hnd : (dictKeys cd).Nodup)
    (hin : ∀ p ∈ cd, (dictKeys p.2).Nodup) (c F : String) :
    dictLookup2 (sortReport cd) c F =
      (dictLookup2 cd c F).map
        (fun e => (⟨sortStrings e.paths, e.all_categories, e.size,
          e.duration⟩ : CatEntry)) := by
  rw [sortReport, dictLookup2]
  have hperm := sortedCatKeys_perm cd hnd
  have hnds : (sortedCatKeys cd).Nodup := hperm.symm.nodup hnd
  rw [lookup_filterMap_transform (sortedCatKeys cd) cd
    (fun m => (sortByKey m).map (fun q =>
      (q.1, (⟨sortStrings q.2.paths, q.2.all_categories, q.2.size,
        q.2.duration⟩ : CatEntry)))) c hnds]
  by_cases hc : c ∈ sortedCatKeys cd
  · rw [if_pos hc]
    cases hl : dictLookup cd c with
    | none => rw [show dictLookup2 cd c F = none from by rw [dictLookup2, hl]]; rfl
    | some m =>
      have hmem : (c, m) ∈ cd := (dictLookup_eq_some_iff hnd c m).mp hl
      have hmnd : (dictKeys m).Nodup := hin (c, m) hmem
      show dictLookup ((sortByKey m).map (fun q =>
        (q.1, (⟨sortStrings q.2.paths, q.2.all_categories, q.2.size,
          q.2.duration⟩ : CatEntry)))) F = _
      rw [dictLookup_map_entry (sortByKey m) F (fun e =>
        (⟨sortStrings e.paths, e.all_categories, e.size, e.duration⟩ : CatEntry))]
      have hpm : (sortByKey m).Perm m := List.perm_insertionSort _ _
      have hmnds : (dictKeys (sortByKey m)).Nodup := (hpm.map Prod.fst).symm.nodup hmnd
      rw [dictLookup_perm hpm hmnds F]
      rw [show dictLookup2 cd c F = dictLookup m F from by rw [dictLookup2, hl]]
  · rw [if_neg hc]
    have hck : c ∉ dictKeys cd := fun hm => hc (hperm.mem_iff.mpr hm)
    rw [show dictLookup2 cd c F = none from by
      rw [dictLookup2, (dictLookup_eq_none_iff cd c).mpr hck]]
    rfl

theorem sortStrings_idem (l : List String) :
    sortStrings (sortStrings l) = sortStrings l := by
  have h1 : List.Sorted (fun a b : String => a ≤ b) (sortStrings (sortStrings l)) :=
    List.sorted_insertionSort _ _
  have h2 : List.Sorted (fun a b : String => a ≤ b) (sortStrings l) :=
    List.sorted_insertionSort _ _
  exact List.eq_of_perm_of_sorted (List.perm_insertionSort _ _) h1 h2

theorem dictLookup_const_map (l : List String) (c0 q : String) :
    dictLookup (l.map (fun x => (x, c0))) q = if q ∈ l then some c0 else none := by
  induction l with
  | nil => simp [dictLookup]
  | cons a l ih =>
    rw [List.map_cons, dictLookup_cons, ih]
    by_cases h : a = q
    · rw [if_pos h, if_pos (by rw [← h]; exact List.mem_cons_self a l)]
    · rw [if_neg h]
      by_cases h2 : q ∈ l
      · rw [if_pos h2, if_pos (List.mem_cons_of_mem a h2)]
      · rw [if_neg h2, if_neg (by
          intro hm
          rcases List.mem_cons.mp hm with hh | hh
          · exact h hh.symm
          · exact h2 hh)]

/-- Claim C8: a filename occurring under parent directories matching at least
two different category prefixes is listed in the completed analyzer report
under every one of its matched categories, with the identical entry each time
(the canonical entry: sorted paths, size of the last occurrence, the missing
vgmstream duration), whose `all_categories` field is the sorted list of every
matched category. -/
theorem claim_C8 (files : List FileRec) (F : String)
    (h2 : 2 ≤ (catsOf files F).length) :
    ∀ c ∈ catsOf files F,
      dictLookup2 (reportOf files) c F = some (canonicalEntry files F)
      ∧ (canonicalEntry files F).all_categories = catsOf files F
      ∧ (canonicalEntry files F).paths =
          sortStrings ((wemOcc files F).map FileRec.relPath) := by
  intro c hc
  refine ⟨?_, rfl, rfl⟩
  cases hocc : wemOcc files F with
  | nil =>
    rw [show catsOf files F = [] from by rw [catsOf, hocc]; rfl] at h2
    simp at h2
  | cons r0 occrest =>
    have hinfo := infoFold_lookup files F []
    rw [show dictLookup ([] : List (String × FileInfo)) F = none from rfl] at hinfo
    rw [show (files.filter isWemRec).filter (fun r => basename r.relPath == F) =
        wemOcc files F from rfl] at hinfo
    rw [hocc, List.foldl_cons, occFold_some] at hinfo
    have hfieq : (wemOcc files F).foldl (fun j r => infoApply r j) ⟨[], [], 0⟩ =
        occrest.foldl (fun j r => infoApply r j) (infoApply r0 (Option.getD none ⟨[], [], 0⟩)) := by
      rw [hocc, List.foldl_cons]
      rfl
    rw [← hfieq] at hinfo
    have hpaths : ((wemOcc files F).foldl (fun j r => infoApply r j) ⟨[], [], 0⟩).paths =
        (wemOcc files F).map FileRec.relPath := by
      rw [infoFoldl_paths]
      rfl
    have hcats : ((wemOcc files F).foldl (fun j r => infoApply r j) ⟨[], [], 0⟩).all_categories =
        dedupAppend ((wemOcc files F).map (fun r => matchCategory r.parentDir)) := by
      rw [infoFoldl_cats, dedupAppend, List.foldl_map]
    have hcats2 : sortStrings ((wemOcc files F).foldl (fun j r => infoApply r j)
        ⟨[], [], 0⟩).all_categories = catsOf files F := by
      rw [hcats, catsOf]
    have hsize : ((wemOcc files F).foldl (fun j r => infoApply r j) ⟨[], [], 0⟩).size =
        match (wemOcc files F).getLast? with
        | some r => r.size
        | none => 0 := by
      rw [infoFoldl_size]
    have hr0 : r0.relPath ∈ (files.filter isWemRec).map FileRec.relPath := by
      have h1 : r0 ∈ wemOcc files F := by
        rw [hocc]
        exact List.mem_cons_self _ _
      have hsub : r0 ∈ files.filter isWemRec := List.mem_of_mem_filter h1
      exact List.mem_map_of_mem FileRec.relPath hsub
    have hdur : durationOf
        (((files.filter isWemRec).map FileRec.relPath).map
          (fun q => (q, "N/A (vgmstream-cli Missing)")))
        ((wemOcc files F).foldl (fun j r => infoApply r j) ⟨[], [], 0⟩) =
        "N/A (vgmstream-cli Missing)" := by
      rw [durationOf, hpaths, hocc, List.map_cons]
      show (dictLookup (((files.filter isWemRec).map FileRec.relPath).map
        (fun q => (q, "N/A (vgmstream-cli Missing)"))) r0.relPath).getD
          "N/A (Lookup Error)" = _
      rw [dictLookup_const_map, if_pos hr0]
      rfl
    have hnd : (dictKeys (files.foldl infoStep [])).Nodup :=
      infoFold_keys_nodup files [] (by simp [dictKeys])
    have hmem : (F, (wemOcc files F).foldl (fun j r => infoApply r j) ⟨[], [], 0⟩) ∈
        files.foldl infoStep [] :=
      (dictLookup_eq_some_iff hnd F _).mp hinfo
    have hcmem : c ∈ sortStrings ((wemOcc files F).foldl (fun j r => infoApply r j)
        ⟨[], [], 0⟩).all_categories := by
      rw [hcats2]
      exact hc
    have hmain := catFold_main (files.foldl infoStep [])
      (((files.filter isWemRec).map FileRec.relPath).map
        (fun q => (q, "N/A (vgmstream-cli Missing)")))
      c F ((wemOcc files F).foldl (fun j r => infoApply r j) ⟨[], [], 0⟩)
      hmem hnd [] (show dictLookup2 [] c F = none from rfl)
    rw [if_pos hcmem] at hmain
    have hck : (dictKeys ((files.foldl infoStep []).foldl
        (catStep (((files.filter isWemRec).map FileRec.relPath).map
          (fun q => (q, "N/A (vgmstream-cli Missing)")))) [])).Nodup :=
      catFold_keys_nodup _ _ [] (by simp [dictKeys])
    have hcin : ∀ p ∈ (files.foldl infoStep []).foldl
        (catStep (((files.filter isWemRec).map FileRec.relPath).map
          (fun q => (q, "N/A (vgmstream-cli Missing)")))) [], (dictKeys p.2).Nodup :=
      catFold_inner_nodup _ _ [] (by intro p hp; cases hp)
    have hrep : reportOf files =
        sortReport ((files.foldl infoStep []).foldl
          (catStep (((files.filter isWemRec).map FileRec.relPath).map
            (fun q => (q, "N/A (vgmstream-cli Missing)")))) []) := rfl
    rw [hrep, sortReport_lookup2 _ hck hcin c F, hmain, Option.map_some']
    have hfinal : (⟨sortStrings (sortStrings ((wemOcc files F).foldl
          (fun j r => infoApply r j) ⟨[], [], 0⟩).paths),
        sortStrings ((wemOcc files F).foldl (fun j r => infoApply r j)
          ⟨[], [], 0⟩).all_categories,
        ((wemOcc files F).foldl (fun j r => infoApply r j) ⟨[], [], 0⟩).size,
        durationOf (((files.filter isWemRec).map FileRec.relPath).map
          (fun q => (q, "N/A (vgmstream-cli Missing)")))
          ((wemOcc files F).foldl (fun j r => infoApply r j) ⟨[], [], 0⟩)⟩ : CatEntry) =
        canonicalEntry files F := by
      rw [canonicalEntry, sortStrings_idem, hpaths, hcats2, hsize, hdur]
    exact congrArg some hfinal

theorem witTree_cats : catsOf witTree "a.wem" = ["Act_", "Ambience_"] := by
  have hle : ("Act_" : String) ≤ "Ambience_" := by
    rw [String.le_iff_toList_le]
    decide
  have hinner : dedupAppend ((wemOcc witTree "a.wem").map
      (fun r => matchCategory r.parentDir)) = ["Act_", "Ambience_"] := by decide
  rw [catsOf, hinner, sortStrings]
  simp [List.insertionSort, List.orderedInsert, hle]

theorem claim_C8_witness :
    dictLookup2 (reportOf witTree) "Act_" "a.wem" =
        some (canonicalEntry witTree "a.wem")
    ∧ (canonicalEntry witTree "a.wem").all_categories = catsOf witTree "a.wem"
    ∧ (canonicalEntry witTree "a.wem").paths =
        sortStrings ((wemOcc witTree "a.wem").map FileRec.relPath) :=
  claim_C8 witTree "a.wem" (by rw [witTree_cats]; decide) "Act_"
    (by rw [witTree_cats]; decide)

end UDAudio
